import Mathlib

/-!
# Verification of the SUF experiment-orchestration layer

This development embeds, in Lean 4, the task-scheduling layer of the SUF
repository and the experiment drivers that feed it:

* the generic dependency-aware scheduler ("Scenario").  Its implementation
  (`graft_road/libs/scenario.py`) is not part of the available sources, only
  its callers are, so the scheduler is modelled from the specification
  (validation, ready-set admission under a concurrency budget, per-task
  transition log, run report);
* the action/dependency graph builders of
  `suf/experiments/simple_flow_experiment.py` (`SimpleFlowExperiment.run`)
  and `suf/experiments/flopoco_flow_experiment.py` (`main`), embedded from
  the source;
* the case enumeration and threaded orchestration of
  `suf/experiments/rscm_shift_experiment.py` (`build_cases`, `runner`,
  `run_scenario`, `_find_metric_file`), embedded from the source.

Theorems at the end of the file settle the stated properties of these
components.
-/

namespace SUF

/-- Task names are strings, as in the Python sources. -/
abbrev Name := String

/-- Modelled from the spec: validation errors of the missing scheduler
(`graft_road/libs/scenario.py` is absent from the sources).  A fatal
`ConfigurationError` either names a dependency reference that is not a key
of the action registry, or reports a dependency cycle as an ordered list of
task names forming the cycle. -/
inductive ConfigError where
  | missing (name : Name)
  | cyclic (cycle : List Name)
deriving DecidableEq, Repr

/-- Per-task transitions recorded in the scheduler's log. -/
inductive Transition where
  | toRunning
  | toSucceeded
  | toFailed
deriving DecidableEq, Repr

/-- One entry of the transition log: a monotone timestamp, the task name and
the transition taken. -/
structure Event where
  time : Nat
  task : Name
  tr : Transition
deriving DecidableEq, Repr

/-- Modelled from the spec: the aggregate consumed by the missing scheduler
(`Scenario` in `graft_road/libs/scenario.py`): the action registry (its key
list, in registration order), the dependency graph (task name to list of
prerequisite names) and, abstracting the opaque actions, the observable
outcome of each action (`true`: the action completes normally, `false`: it
raises or returns a failure signal). -/
structure Scenario where
  tasks : List Name
  deps : List (Name × List Name)
  outcome : Name → Bool

/-- Python-dict lookup on an association list built by repeated assignment:
the value of the *last* binding of the key wins. -/
def lookupLast (n : Name) : List (Name × List Name) → Option (List Name)
  | [] => none
  | (k, v) :: rest =>
    match lookupLast n rest with
    | some w => some w
    | none => if k = n then some v else none

/-- Dependencies of a task: the final binding in the dependency dictionary,
or `[]` when the task has no binding. -/
def depsOf (s : Scenario) (n : Name) : List Name :=
  (lookupLast n s.deps).getD []

/-! ## Dependency-graph validation (modelled from the spec)

The spec prescribes a depth-first traversal tracking a "visiting" set; a
back-edge to a node still in "visiting" state is a cycle, reported as an
ordered list of task names.  The traversal is written with explicit fuel
(the recursion depth is bounded by the number of tasks; the fuel passed in
by `validate` is one more than that bound). -/

/-- DFS visits of a list of nodes, threading the `done` accumulator;
`visit` is the visitor applied to each node. -/
def visitListWith
    (visit : Name → List Name → List Name → Except ConfigError (List Name)) :
    List Name → List Name → List Name → Except ConfigError (List Name)
  | [], _, done => .ok done
  | d :: ds, visiting, done =>
    match visit d visiting done with
    | .error e => .error e
    | .ok done1 => visitListWith visit ds visiting done1

/-- One DFS visit given the visitor used for the node's dependencies. -/
def visitNodeF (s : Scenario)
    (recVisit : Name → List Name → List Name → Except ConfigError (List Name))
    (n : Name) (visiting done : List Name) : Except ConfigError (List Name) :=
  if n ∈ done then .ok done
  else if n ∈ visiting then
    .error (.cyclic (n :: (visiting.takeWhile (fun x => x ≠ n)).reverse))
  else
    match visitListWith recVisit (depsOf s n) (n :: visiting) done with
    | .error e => .error e
    | .ok done1 => .ok (n :: done1)

/-- Modelled from the spec: one DFS visit of the validator of the missing
scheduler.  `visiting` is the path of the current traversal (innermost
first), `done` the list of finished nodes (most recently finished first).
On success the returned list extends `done` and topologically orders the
newly finished nodes before their prerequisites.  Written with `Nat.rec`
over the fuel so that the definition computes by kernel reduction. -/
def visitNode (s : Scenario) (fuel : Nat) :
    Name → List Name → List Name → Except ConfigError (List Name) :=
  Nat.rec (fun _ _ _ => .error (.cyclic []))
    (fun _ ih => visitNodeF s ih) fuel

/-- Modelled from the spec: DFS visits of a list of nodes at a given fuel. -/
def visitList (s : Scenario) (fuel : Nat) :
    List Name → List Name → List Name → Except ConfigError (List Name) :=
  visitListWith (visitNode s fuel)

theorem visitNode_zero (s : Scenario) (n : Name) (visiting done : List Name) :
    visitNode s 0 n visiting done = .error (.cyclic []) := rfl

theorem visitNode_succ (s : Scenario) (fuel : Nat) (n : Name)
    (visiting done : List Name) :
    visitNode s (fuel + 1) n visiting done =
      if n ∈ done then .ok done
      else if n ∈ visiting then
        .error (.cyclic (n :: (visiting.takeWhile (fun x => x ≠ n)).reverse))
      else
        match visitList s fuel (depsOf s n) (n :: visiting) done with
        | .error e => .error e
        | .ok done1 => .ok (n :: done1) := rfl

theorem visitList_nil (s : Scenario) (fuel : Nat) (visiting done : List Name) :
    visitList s fuel [] visiting done = .ok done := rfl

theorem visitList_cons (s : Scenario) (fuel : Nat) (d : Name) (ds : List Name)
    (visiting done : List Name) :
    visitList s fuel (d :: ds) visiting done =
      match visitNode s fuel d visiting done with
      | .error e => .error e
      | .ok done1 => visitList s fuel ds visiting done1 := rfl

/-- First dependency name referenced by the graph that is not a key of the
action registry (keys of the dependency dictionary must be keys of the
registry, and every value must reference only keys of the registry). -/
def missingName (s : Scenario) : Option Name :=
  ((s.deps.map Prod.fst ++ (s.deps.map Prod.snd).flatten).filter
    (fun n => ¬ n ∈ s.tasks)).head?

/-- Modelled from the spec: graph validation of the missing scheduler.  It
reports an unknown dependency reference or a cycle as a fatal
`ConfigurationError`; otherwise it returns the DFS finish order (each task
listed before the tasks it depends on).  This check runs once, before any
task executes. -/
def validate (s : Scenario) : Except ConfigError (List Name) :=
  match missingName s with
  | some m => .error (.missing m)
  | none => visitList s (s.tasks.length + 1) s.tasks [] []

/-! ## Scheduler execution (modelled from the spec)

The run state maps every task to one of pending / running / succeeded /
failed; we keep the four classes as disjoint lists (pending in registration
order, running in admission order).  The coordinator repeatedly admits ready
tasks up to the concurrency budget and takes completion reports from the
workers; in the model one worker report is processed per loop iteration. -/

/-- Modelled from the spec: the run state of the missing scheduler.  The
four lists partition the task names; `log` is the chronological transition
log and `time` the next free timestamp. -/
structure SchedState where
  pending : List Name
  running : List Name
  succeeded : List Name
  failed : List Name
  log : List Event
  time : Nat
deriving Repr, DecidableEq

/-- Initial run state: every task pending, in registration order. -/
def initState (s : Scenario) : SchedState :=
  { pending := s.tasks, running := [], succeeded := [], failed := []
    log := [], time := 0 }

/-- Modelled from the spec: the ready set — tasks currently pending whose
every dependency is succeeded — in deterministic registration order. -/
def readySet (s : Scenario) (st : SchedState) : List Name :=
  st.pending.filter (fun n => (depsOf s n).all (fun d => d ∈ st.succeeded))

/-- The tasks admitted in one scheduling round: a prefix of the ready set
filling the free worker slots. -/
def readyTake (s : Scenario) (N : Nat) (st : SchedState) : List Name :=
  (readySet s st).take (N - st.running.length)

/-- The `pending → running` log entries for a batch of admitted tasks,
stamped with consecutive times starting at `time`. -/
def runEventsFor (time : Nat) : List Name → List Event
  | [] => []
  | r :: rest => ⟨time, r, .toRunning⟩ :: runEventsFor (time + 1) rest

/-- Modelled from the spec: greedy admission.  Tasks are taken from the
ready set, in order, until the number of running tasks reaches the budget
`N`; each admitted task transitions pending → running and is logged. -/
def admitReady (s : Scenario) (N : Nat) (st : SchedState) : SchedState :=
  { pending := st.pending.filter (fun n => ¬ n ∈ readyTake s N st)
    running := st.running ++ readyTake s N st
    succeeded := st.succeeded
    failed := st.failed
    log := st.log ++ runEventsFor st.time (readyTake s N st)
    time := st.time + (readyTake s N st).length }

/-- Modelled from the spec: one worker completion report.  The oldest
running task finishes; its action's outcome decides the transition
running → succeeded or running → failed, which is recorded in the log. -/
def complete (s : Scenario) (st : SchedState) : SchedState :=
  match st.running with
  | [] => st
  | r :: rest =>
    if s.outcome r then
      { pending := st.pending, running := rest
        succeeded := st.succeeded ++ [r], failed := st.failed
        log := st.log ++ [⟨st.time, r, .toSucceeded⟩], time := st.time + 1 }
    else
      { pending := st.pending, running := rest
        succeeded := st.succeeded, failed := st.failed ++ [r]
        log := st.log ++ [⟨st.time, r, .toFailed⟩], time := st.time + 1 }

/-- Modelled from the spec: the scheduler loop.  Each iteration admits
ready tasks up to the budget; if nothing is running afterwards the run is
terminal (all work done, or stalled), otherwise one worker report is
processed and the loop repeats.  Fuel bounds the iterations; `run` passes
enough fuel for the loop to reach its terminal state. -/
def execLoop (s : Scenario) (N : Nat) : Nat → SchedState → SchedState
  | 0, st => st
  | fuel + 1, st =>
    let st1 := admitReady s N st
    if st1.running.isEmpty then st1
    else execLoop s N fuel (complete s st1)

/-- The sequence of states the scheduler loop passes through (used to state
instant-by-instant invariants such as the concurrency bound). -/
def execTrace (s : Scenario) (N : Nat) : Nat → SchedState → List SchedState
  | 0, st => [st]
  | fuel + 1, st =>
    let st1 := admitReady s N st
    if st1.running.isEmpty then [st, st1]
    else st :: st1 :: execTrace s N fuel (complete s st1)

/-- Modelled from the spec: the run's final state. -/
inductive FinalState where
  | success
  | aborted
  | stalled
deriving DecidableEq, Repr

/-- Modelled from the spec: the run report — final state, the succeeded and
failed task lists, the pending tasks that became permanently unreachable,
and the transition log. -/
structure RunReport where
  final : FinalState
  succeeded : List Name
  failed : List Name
  unreachable : List Name
  log : List Event
deriving Repr, DecidableEq

/-- The state in which the scheduler loop finishes, starting from the
initial state with enough fuel to reach a terminal state. -/
def finalSchedState (s : Scenario) (N : Nat) : SchedState :=
  execLoop s N (s.tasks.length + 1) (initState s)

/-- Modelled from the spec: `run(concurrency) -> RunReport`.  Validation
runs first and surfaces a fatal `ConfigurationError` before any task
executes; otherwise the loop drives every task to a terminal state and the
report enumerates succeeded, failed and unreachable tasks. -/
def run (s : Scenario) (N : Nat) : Except ConfigError RunReport :=
  match validate s with
  | .error e => .error e
  | .ok _ =>
    let st := finalSchedState s N
    .ok { final := if st.pending.isEmpty && st.failed.isEmpty then .success
                   else .stalled
          succeeded := st.succeeded
          failed := st.failed
          unreachable := st.pending
          log := st.log }

/-! ## Derived notions used by the statements -/

/-- `DepStep s a b`: task `a` declares a direct dependency on task `b`. -/
def DepStep (s : Scenario) (a b : Name) : Prop := b ∈ depsOf s a

/-- Transitive dependency. -/
def DepPath (s : Scenario) : Name → Name → Prop :=
  Relation.TransGen (DepStep s)

/-- The dependency graph contains a cycle through some registered task. -/
def HasCycle (s : Scenario) : Prop :=
  ∃ n ∈ s.tasks, DepPath s n n

/-- `TopoList s l`: every element's dependencies lie strictly in its tail —
`l` is a reverse-topological listing (finish order of the DFS). -/
def TopoList (s : Scenario) : List Name → Prop
  | [] => True
  | n :: rest => (∀ d ∈ depsOf s n, d ∈ rest) ∧ TopoList s rest

/-- Position of a name in a list (length of the list when absent). -/
def rankIn (l : List Name) (n : Name) : Nat :=
  match l with
  | [] => 0
  | x :: rest => if x = n then 0 else rankIn rest n + 1

/-! ## Lemmas about lookup and validation -/

theorem lookupLast_mem {n : Name} {v : List Name} :
    ∀ {l : List (Name × List Name)}, lookupLast n l = some v → (n, v) ∈ l := by
  intro l
  induction l with
  | nil => intro h; simp [lookupLast] at h
  | cons p rest ih =>
    obtain ⟨k, w0⟩ := p
    intro h
    rw [lookupLast] at h
    rcases hr : lookupLast n rest with _ | w
    · rw [hr] at h
      simp only at h
      split at h
      · rename_i hk
        cases h
        subst hk
        exact List.mem_cons_self _ _
      · cases h
    · rw [hr] at h
      simp only at h
      cases h
      exact List.mem_cons_of_mem _ (ih hr)

theorem missingName_none {s : Scenario} (h : missingName s = none) :
    (∀ p ∈ s.deps, p.1 ∈ s.tasks) ∧ (∀ p ∈ s.deps, ∀ d ∈ p.2, d ∈ s.tasks) := by
  have hnil : ((s.deps.map Prod.fst ++ (s.deps.map Prod.snd).flatten).filter
      (fun n => ¬ n ∈ s.tasks)) = [] := by
    unfold missingName at h
    exact List.head?_eq_none_iff.1 h
  have hall : ∀ x ∈ s.deps.map Prod.fst ++ (s.deps.map Prod.snd).flatten,
      x ∈ s.tasks := by
    intro x hx
    by_contra hxn
    have : x ∈ ((s.deps.map Prod.fst ++ (s.deps.map Prod.snd).flatten).filter
        (fun n => ¬ n ∈ s.tasks)) := by
      apply List.mem_filter.2
      exact ⟨hx, by simpa using hxn⟩
    rw [hnil] at this
    cases this
  constructor
  · intro p hp
    exact hall _ (List.mem_append_left _ (List.mem_map_of_mem Prod.fst hp))
  · intro p hp d hd
    refine hall _ (List.mem_append_right _ ?_)
    exact List.mem_flatten.2 ⟨p.2, List.mem_map_of_mem Prod.snd hp, hd⟩

theorem depsOf_subset_tasks {s : Scenario} (h : missingName s = none)
    {n d : Name} (hd : d ∈ depsOf s n) : d ∈ s.tasks := by
  unfold depsOf at hd
  rcases hl : lookupLast n s.deps with _ | v
  · rw [hl] at hd; cases hd
  · rw [hl] at hd
    exact (missingName_none h).2 (n, v) (lookupLast_mem hl) d hd

/-- Soundness of the DFS: a successful visit extends the `done` list to a
duplicate-free reverse-topological list containing the visited node. -/
theorem visit_ok_props (s : Scenario) : ∀ fuel : Nat,
    (∀ n visiting done d', visitNode s fuel n visiting done = .ok d' →
      done.Nodup → TopoList s done → (∀ x ∈ done, x ∉ visiting) →
      d'.Nodup ∧ TopoList s d' ∧ (∀ x ∈ done, x ∈ d') ∧ n ∈ d' ∧
        (∀ x ∈ d', x ∉ visiting)) ∧
    (∀ ds visiting done d', visitList s fuel ds visiting done = .ok d' →
      done.Nodup → TopoList s done → (∀ x ∈ done, x ∉ visiting) →
      d'.Nodup ∧ TopoList s d' ∧ (∀ x ∈ done, x ∈ d') ∧ (∀ x ∈ ds, x ∈ d') ∧
        (∀ x ∈ d', x ∉ visiting)) := by
  intro fuel
  induction fuel with
  | zero =>
    constructor
    · intro n visiting done d' h
      rw [visitNode_zero] at h
      cases h
    · intro ds visiting done d' h hnd ht hdisj
      cases ds with
      | nil =>
        rw [visitList_nil] at h
        cases h
        exact ⟨hnd, ht, fun x hx => hx, (fun x hx => absurd hx (List.not_mem_nil x)), hdisj⟩
      | cons d ds =>
        rw [visitList_cons, visitNode_zero] at h
        cases h
  | succ fuel ih =>
    have hnode : ∀ n visiting done d', visitNode s (fuel + 1) n visiting done = .ok d' →
        done.Nodup → TopoList s done → (∀ x ∈ done, x ∉ visiting) →
        d'.Nodup ∧ TopoList s d' ∧ (∀ x ∈ done, x ∈ d') ∧ n ∈ d' ∧
          (∀ x ∈ d', x ∉ visiting) := by
      intro n visiting done d' h hnd ht hdisj
      rw [visitNode_succ] at h
      by_cases hdone : n ∈ done
      · rw [if_pos hdone] at h
        cases h
        exact ⟨hnd, ht, fun x hx => hx, hdone, hdisj⟩
      · rw [if_neg hdone] at h
        by_cases hvis : n ∈ visiting
        · rw [if_pos hvis] at h
          cases h
        · rw [if_neg hvis] at h
          rcases hvl : visitList s fuel (depsOf s n) (n :: visiting) done with e | done1
          · rw [hvl] at h; cases h
          · rw [hvl] at h
            cases h
            have hdisj' : ∀ x ∈ done, x ∉ n :: visiting := by
              intro x hx
              intro hmem
              rcases List.mem_cons.1 hmem with rfl | hmem'
              · exact hdone hx
              · exact hdisj x hx hmem'
            obtain ⟨h1, h2, h3, h4, h5⟩ := ih.2 (depsOf s n) (n :: visiting) done done1 hvl hnd ht hdisj'
            have hn1 : n ∉ done1 := fun hc => (h5 n hc) (List.mem_cons_self n _)
            refine ⟨List.nodup_cons.2 ⟨hn1, h1⟩, ⟨h4, h2⟩, ?_, List.mem_cons_self _ _, ?_⟩
            · intro x hx; exact List.mem_cons_of_mem _ (h3 x hx)
            · intro x hx
              rcases List.mem_cons.1 hx with rfl | hx'
              · exact hvis
              · exact fun hc => (h5 x hx') (List.mem_cons_of_mem _ hc)
    refine ⟨hnode, ?_⟩
    intro ds
    induction ds with
    | nil =>
      intro visiting done d' h hnd ht hdisj
      rw [visitList_nil] at h
      cases h
      exact ⟨hnd, ht, fun x hx => hx, (fun x hx => absurd hx (List.not_mem_nil x)), hdisj⟩
    | cons d ds ihds =>
      intro visiting done d' h hnd ht hdisj
      rw [visitList_cons] at h
      rcases hvn : visitNode s (fuel + 1) d visiting done with e | done1
      · rw [hvn] at h; cases h
      · rw [hvn] at h
        obtain ⟨h1, h2, h3, h4, h5⟩ := hnode d visiting done done1 hvn hnd ht hdisj
        obtain ⟨g1, g2, g3, g4, g5⟩ := ihds visiting done1 d' h h1 h2 h5
        refine ⟨g1, g2, fun x hx => g3 x (h3 x hx), ?_, g5⟩
        intro x hx
        rcases List.mem_cons.1 hx with rfl | hx'
        · exact g3 x h4
        · exact g4 x hx'

/-- DFS errors are always reported as cycles. -/
theorem visit_error_cyclic (s : Scenario) : ∀ fuel : Nat,
    (∀ n visiting done e, visitNode s fuel n visiting done = .error e →
      ∃ c, e = .cyclic c) ∧
    (∀ ds visiting done e, visitList s fuel ds visiting done = .error e →
      ∃ c, e = .cyclic c) := by
  intro fuel
  induction fuel with
  | zero =>
    constructor
    · intro n visiting done e h
      rw [visitNode_zero] at h
      cases h
      exact ⟨[], rfl⟩
    · intro ds
      induction ds with
      | nil => intro visiting done e h; rw [visitList_nil] at h; cases h
      | cons d ds ihds =>
        intro visiting done e h
        rw [visitList_cons, visitNode_zero] at h
        cases h
        exact ⟨[], rfl⟩
  | succ fuel ih =>
    have hnode : ∀ n visiting done e, visitNode s (fuel + 1) n visiting done = .error e →
        ∃ c, e = .cyclic c := by
      intro n visiting done e h
      rw [visitNode_succ] at h
      by_cases hdone : n ∈ done
      · rw [if_pos hdone] at h; cases h
      · rw [if_neg hdone] at h
        by_cases hvis : n ∈ visiting
        · rw [if_pos hvis] at h
          cases h
          exact ⟨_, rfl⟩
        · rw [if_neg hvis] at h
          rcases hvl : visitList s fuel (depsOf s n) (n :: visiting) done with e' | done1
          · rw [hvl] at h
            cases h
            exact ih.2 _ _ _ _ hvl
          · rw [hvl] at h; cases h
    refine ⟨hnode, ?_⟩
    intro ds
    induction ds with
    | nil => intro visiting done e h; rw [visitList_nil] at h; cases h
    | cons d ds ihds =>
      intro visiting done e h
      rw [visitList_cons] at h
      rcases hvn : visitNode s (fuel + 1) d visiting done with e' | done1
      · rw [hvn] at h
        cases h
        exact hnode _ _ _ _ hvn
      · rw [hvn] at h
        exact ihds _ _ _ h

theorem rankIn_lt_length {l : List Name} {n : Name} (h : n ∈ l) :
    rankIn l n < l.length := by
  induction l with
  | nil => cases h
  | cons x rest ih =>
    rw [rankIn]
    by_cases hx : x = n
    · rw [if_pos hx]; simp
    · rw [if_neg hx]
      have : n ∈ rest := by
        rcases List.mem_cons.1 h with rfl | h'
        · exact absurd rfl hx
        · exact h'
      simpa using ih this

/-- In a duplicate-free reverse-topological list, dependencies come strictly
later. -/
theorem topo_rank_lt {s : Scenario} : ∀ {l : List Name}, TopoList s l → l.Nodup →
    ∀ {n : Name}, n ∈ l → ∀ {d : Name}, d ∈ depsOf s n → d ∈ l ∧ rankIn l n < rankIn l d := by
  intro l
  induction l with
  | nil => intro _ _ n hn; cases hn
  | cons x rest ih =>
    intro ht hnd n hn d hd
    obtain ⟨hx, ht'⟩ := ht
    have hxrest : x ∉ rest := (List.nodup_cons.1 hnd).1
    have hnd' : rest.Nodup := (List.nodup_cons.1 hnd).2
    by_cases heq : n = x
    · have hdrest : d ∈ rest := hx d (by rw [← heq]; exact hd)
      have hdx : x ≠ d := fun hc => hxrest (hc ▸ hdrest)
      refine ⟨List.mem_cons_of_mem _ hdrest, ?_⟩
      rw [rankIn, rankIn, if_pos heq.symm, if_neg hdx]
      exact Nat.succ_pos _
    · have hn' : n ∈ rest := by
        rcases List.mem_cons.1 hn with h | h
        · exact absurd h heq
        · exact h
      obtain ⟨hdl, hrk⟩ := ih ht' hnd' hn' hd
      have hnx : x ≠ n := fun hc => heq hc.symm
      have hdx : x ≠ d := fun hc => hxrest (hc ▸ hdl)
      refine ⟨List.mem_cons_of_mem _ hdl, ?_⟩
      rw [rankIn, rankIn, if_neg hnx, if_neg hdx]
      exact Nat.succ_lt_succ hrk

theorem topo_path_rank {s : Scenario} {l : List Name} (ht : TopoList s l)
    (hnd : l.Nodup) {a b : Name} (hp : DepPath s a b) (ha : a ∈ l) :
    b ∈ l ∧ rankIn l a < rankIn l b := by
  induction hp with
  | single h => exact topo_rank_lt ht hnd ha h
  | tail _ h ih =>
    obtain ⟨hc, hrk⟩ := ih
    obtain ⟨hb, hrk'⟩ := topo_rank_lt ht hnd hc h
    exact ⟨hb, Nat.lt_trans hrk hrk'⟩

theorem topo_no_cycle {s : Scenario} {l : List Name} (ht : TopoList s l)
    (hnd : l.Nodup) {n : Name} (hn : n ∈ l) : ¬ DepPath s n n := by
  intro hp
  exact Nat.lt_irrefl _ (topo_path_rank ht hnd hp hn).2

/-- A successfully validated graph yields a duplicate-free topological finish
order that contains every registered task. -/
theorem validate_ok {s : Scenario} {l : List Name} (h : validate s = .ok l) :
    missingName s = none ∧ l.Nodup ∧ TopoList s l ∧ ∀ t ∈ s.tasks, t ∈ l := by
  unfold validate at h
  rcases hm : missingName s with _ | m
  · rw [hm] at h
    obtain ⟨h1, h2, _, h4, _⟩ :=
      (visit_ok_props s (s.tasks.length + 1)).2 s.tasks [] [] l h List.nodup_nil
        trivial (by intro x hx; cases hx)
    exact ⟨rfl, h1, h2, h4⟩
  · rw [hm] at h
    cases h

/-- A graph with a cycle through a registered task never validates. -/
theorem validate_error_of_hasCycle {s : Scenario} (h : HasCycle s) :
    ∃ e, validate s = .error e := by
  rcases hv : validate s with e | l
  · exact ⟨e, rfl⟩
  · obtain ⟨n, hn, hp⟩ := h
    obtain ⟨_, hnd, ht, hsub⟩ := validate_ok hv
    exact absurd hp (topo_no_cycle ht hnd (hsub n hn))

/-- With all dependency references valid, the error reported for a cyclic
graph is the cycle itself. -/
theorem validate_cyclic_of_hasCycle {s : Scenario} (h : HasCycle s)
    (hm : missingName s = none) : ∃ c, validate s = .error (.cyclic c) := by
  obtain ⟨e, he⟩ := validate_error_of_hasCycle h
  unfold validate at he
  rw [hm] at he
  obtain ⟨c, rfl⟩ := (visit_error_cyclic s (s.tasks.length + 1)).2 _ _ _ _ he
  refine ⟨c, ?_⟩
  unfold validate
  rw [hm]
  exact he

/-! ## Scheduler-execution invariants -/

/-- Number of `pending → running` events recorded for task `n`. -/
def runEvents (log : List Event) (n : Name) : Nat :=
  log.countP (fun e => e.task = n ∧ e.tr = Transition.toRunning)

/-- Total number of `pending → running` events in a log. -/
def runTotal (log : List Event) : Nat :=
  log.countP (fun e => e.tr = Transition.toRunning)

/-- The state invariant maintained by the scheduler loop.  The four status
lists partition the task registry; the log faithfully reflects the state:
every running/terminated task was admitted exactly once, every succeeded
task has a logged `succeeded` event, and every admission was logged after
the `succeeded` events of all its dependencies. -/
structure Inv (s : Scenario) (N : Nat) (st : SchedState) : Prop where
  perm : List.Perm (st.pending ++ st.running ++ st.succeeded ++ st.failed) s.tasks
  bound : st.running.length ≤ N
  logTime : ∀ e ∈ st.log, e.time < st.time
  succEv : ∀ n ∈ st.succeeded, ∃ t, t < st.time ∧ Event.mk t n .toSucceeded ∈ st.log
  runDeps : ∀ e ∈ st.log, e.tr = Transition.toRunning →
    ∀ d ∈ depsOf s e.task, ∃ t, t < e.time ∧ Event.mk t d .toSucceeded ∈ st.log
  succOut : ∀ n ∈ st.succeeded, s.outcome n = true
  failOut : ∀ n ∈ st.failed, s.outcome n = false
  pendCount : ∀ n ∈ st.pending, runEvents st.log n = 0
  doneCount : ∀ n, n ∈ st.running ∨ n ∈ st.succeeded ∨ n ∈ st.failed →
    runEvents st.log n = 1
  total : runTotal st.log = st.running.length + st.succeeded.length + st.failed.length

theorem initInv (s : Scenario) (N : Nat) : Inv s N (initState s) := by
  refine ⟨?_, ?_, ?_, ?_, ?_, ?_, ?_, ?_, ?_, ?_⟩ <;>
    simp [initState, runEvents, runTotal]

theorem mem_runEventsFor {t : Nat} {rs : List Name} {e : Event}
    (h : e ∈ runEventsFor t rs) :
    t ≤ e.time ∧ e.time < t + rs.length ∧ e.tr = Transition.toRunning ∧
      e.task ∈ rs := by
  induction rs generalizing t with
  | nil => cases h
  | cons r rest ih =>
    rw [runEventsFor] at h
    rcases List.mem_cons.1 h with rfl | h'
    · refine ⟨Nat.le_refl _, by simp, rfl, List.mem_cons_self _ _⟩
    · obtain ⟨h1, h2, h3, h4⟩ := ih h'
      refine ⟨Nat.le_of_succ_le h1, by simp only [List.length_cons]; omega, h3,
        List.mem_cons_of_mem _ h4⟩

theorem runEvents_runEventsFor (t : Nat) (rs : List Name) (n : Name) :
    runEvents (runEventsFor t rs) n = rs.count n := by
  induction rs generalizing t with
  | nil => rfl
  | cons r rest ih =>
    rw [runEventsFor]
    unfold runEvents at ih ⊢
    rw [List.countP_cons, List.count_cons, ih t.succ]
    by_cases hr : r = n <;> simp [hr]

theorem runTotal_runEventsFor (t : Nat) (rs : List Name) :
    runTotal (runEventsFor t rs) = rs.length := by
  induction rs generalizing t with
  | nil => rfl
  | cons r rest ih =>
    rw [runEventsFor]
    unfold runTotal at ih ⊢
    rw [List.countP_cons, ih t.succ]
    simp

theorem runEvents_append (l₁ l₂ : List Event) (n : Name) :
    runEvents (l₁ ++ l₂) n = runEvents l₁ n + runEvents l₂ n :=
  List.countP_append _ _ _

theorem runTotal_append (l₁ l₂ : List Event) :
    runTotal (l₁ ++ l₂) = runTotal l₁ + runTotal l₂ :=
  List.countP_append _ _ _

/-- Elements of the admitted batch come from the pending list. -/
theorem readyTake_subset_pending {s : Scenario} {N : Nat} {st : SchedState} :
    ∀ x ∈ readyTake s N st, x ∈ st.pending := by
  intro x hx
  have hx' : x ∈ readySet s st := List.take_subset _ _ hx
  exact (List.mem_filter.1 hx').1

/-- Every dependency of an admitted task has already succeeded. -/
theorem readyTake_deps_succeeded {s : Scenario} {N : Nat} {st : SchedState} :
    ∀ x ∈ readyTake s N st, ∀ d ∈ depsOf s x, d ∈ st.succeeded := by
  intro x hx d hd
  have hx' : x ∈ readySet s st := List.take_subset _ _ hx
  have := (List.mem_filter.1 hx').2
  rw [List.all_eq_true] at this
  simpa using this d hd

theorem readyTake_nodup {s : Scenario} {N : Nat} {st : SchedState}
    (h : st.pending.Nodup) : (readyTake s N st).Nodup :=
  ((List.take_sublist _ _).nodup (h.filter _))

theorem readyTake_length {s : Scenario} {N : Nat} {st : SchedState} :
    (readyTake s N st).length ≤ N - st.running.length :=
  List.length_take_le _ _

/-- Key permutation fact behind admission: removing a duplicate-free batch
from a duplicate-free list and appending it again is a permutation. -/
theorem filter_remove_append_perm {l rs : List Name} (hnd : l.Nodup)
    (hrs : rs.Nodup) (hsub : ∀ x ∈ rs, x ∈ l) :
    List.Perm (l.filter (fun n => ¬ n ∈ rs) ++ rs) l := by
  have hfil : (l.filter (fun n => ¬ n ∈ rs)).Nodup := hnd.filter _
  have hnd' : (l.filter (fun n => ¬ n ∈ rs) ++ rs).Nodup := by
    rw [List.nodup_append]
    refine ⟨hfil, hrs, ?_⟩
    intro a ha hb
    have := (List.mem_filter.1 ha).2
    simp only [decide_not, Bool.not_eq_true', decide_eq_false_iff_not] at this
    exact this hb
  refine (List.perm_ext_iff_of_nodup hnd' hnd).2 ?_
  intro a
  constructor
  · intro h
    rcases List.mem_append.1 h with h' | h'
    · exact (List.mem_filter.1 h').1
    · exact hsub a h'
  · intro h
    by_cases ha : a ∈ rs
    · exact List.mem_append_right _ ha
    · refine List.mem_append_left _ (List.mem_filter.2 ⟨h, ?_⟩)
      simpa using ha

/-- Structural facts about the four status lists extracted from the
partition invariant: pending is duplicate-free and disjoint from the other
three lists. -/
theorem pending_facts {s : Scenario} {N : Nat} {st : SchedState}
    (hnd : s.tasks.Nodup) (inv : Inv s N st) :
    st.pending.Nodup ∧
      ∀ x ∈ st.pending, x ∉ st.running ∧ x ∉ st.succeeded ∧ x ∉ st.failed := by
  have h : (st.pending ++ st.running ++ st.succeeded ++ st.failed).Nodup :=
    inv.perm.nodup_iff.2 hnd
  rw [List.append_assoc, List.append_assoc, List.nodup_append] at h
  obtain ⟨h1, _, h3⟩ := h
  refine ⟨h1, ?_⟩
  intro x hx
  have hx' := h3 hx
  refine ⟨?_, ?_, ?_⟩ <;> intro hc <;> apply hx'
  · exact List.mem_append_left _ hc
  · exact List.mem_append_right _ (List.mem_append_left _ hc)
  · exact List.mem_append_right _ (List.mem_append_right _ hc)

/-- Admission preserves the scheduler invariant. -/
theorem admit_inv {s : Scenario} {N : Nat} {st : SchedState}
    (hnd : s.tasks.Nodup) (inv : Inv s N st) : Inv s N (admitReady s N st) := by
  have hsub := @readyTake_subset_pending s N st
  have hready := @readyTake_deps_succeeded s N st
  obtain ⟨hpnodup, hdisj⟩ := pending_facts hnd inv
  have hrsnodup : (readyTake s N st).Nodup := readyTake_nodup hpnodup
  have hkey : List.Perm
      (st.pending.filter (fun n => ¬ n ∈ readyTake s N st) ++ readyTake s N st)
      st.pending :=
    filter_remove_append_perm hpnodup hrsnodup hsub
  have hlen : (readyTake s N st).length ≤ N - st.running.length := readyTake_length
  refine ⟨?_, ?_, ?_, ?_, ?_, ?_, ?_, ?_, ?_, ?_⟩
  · -- perm
    rw [List.perm_iff_count]
    intro a
    have h1 := List.perm_iff_count.1 hkey a
    have h2 := List.perm_iff_count.1 inv.perm a
    simp only [admitReady, List.count_append] at h1 h2 ⊢
    omega
  · -- bound
    have := inv.bound
    simp only [admitReady, List.length_append]
    omega
  · -- logTime
    intro e he
    simp only [admitReady] at he ⊢
    rcases List.mem_append.1 he with h | h
    · have := inv.logTime e h
      omega
    · exact (mem_runEventsFor h).2.1
  · -- succEv
    intro n hn
    simp only [admitReady] at hn ⊢
    obtain ⟨t, ht, hev⟩ := inv.succEv n hn
    exact ⟨t, by omega, List.mem_append_left _ hev⟩
  · -- runDeps
    intro e he htr d hd
    simp only [admitReady] at he ⊢
    rcases List.mem_append.1 he with h | h
    · obtain ⟨t, ht, hev⟩ := inv.runDeps e h htr d hd
      exact ⟨t, ht, List.mem_append_left _ hev⟩
    · obtain ⟨h1, _, _, h4⟩ := mem_runEventsFor h
      have hds : d ∈ st.succeeded := hready e.task h4 d hd
      obtain ⟨t, ht, hev⟩ := inv.succEv d hds
      exact ⟨t, by omega, List.mem_append_left _ hev⟩
  · -- succOut
    intro n hn
    exact inv.succOut n hn
  · -- failOut
    intro n hn
    exact inv.failOut n hn
  · -- pendCount
    intro n hn
    simp only [admitReady] at hn ⊢
    have h1 : n ∈ st.pending := (List.mem_filter.1 hn).1
    have h2 : n ∉ readyTake s N st := by
      have := (List.mem_filter.1 hn).2
      simpa using this
    rw [runEvents_append, inv.pendCount n h1, runEvents_runEventsFor,
      List.count_eq_zero_of_not_mem h2]
  · -- doneCount
    intro n hn
    simp only [admitReady] at hn ⊢
    rw [runEvents_append, runEvents_runEventsFor]
    rcases hn with hn | hn | hn
    · rcases List.mem_append.1 hn with h | h
      · have h0 : n ∉ readyTake s N st := by
          intro hc
          exact (hdisj n (hsub n hc)).1 h
        rw [inv.doneCount n (Or.inl h), List.count_eq_zero_of_not_mem h0]
      · have h1 : n ∈ st.pending := hsub n h
        rw [inv.pendCount n h1, List.count_eq_one_of_mem hrsnodup h]
    · have h0 : n ∉ readyTake s N st := by
        intro hc
        exact (hdisj n (hsub n hc)).2.1 hn
      rw [inv.doneCount n (Or.inr (Or.inl hn)), List.count_eq_zero_of_not_mem h0]
    · have h0 : n ∉ readyTake s N st := by
        intro hc
        exact (hdisj n (hsub n hc)).2.2 hn
      rw [inv.doneCount n (Or.inr (Or.inr hn)), List.count_eq_zero_of_not_mem h0]
  · -- total
    simp only [admitReady]
    rw [runTotal_append, runTotal_runEventsFor, inv.total, List.length_append]
    omega

/-- Processing one worker completion report preserves the invariant. -/
theorem complete_inv {s : Scenario} {N : Nat} {st : SchedState}
    (inv : Inv s N st) : Inv s N (complete s st) := by
  rcases hr : st.running with _ | ⟨r, rest⟩
  · simpa [complete, hr] using inv
  · have hrr : r ∈ st.running := by rw [hr]; exact List.mem_cons_self _ _
    have hrest : ∀ x ∈ rest, x ∈ st.running := by
      intro x hx
      rw [hr]
      exact List.mem_cons_of_mem _ hx
    have hcnt := fun a => List.perm_iff_count.1 inv.perm a
    have hbound := inv.bound
    rw [hr] at hbound
    simp only [List.length_cons] at hbound
    by_cases ho : s.outcome r = true
    · have hc : complete s st =
          { pending := st.pending, running := rest
            succeeded := st.succeeded ++ [r], failed := st.failed
            log := st.log ++ [⟨st.time, r, .toSucceeded⟩], time := st.time + 1 } := by
        rw [complete, hr]
        simp [ho]
      rw [hc]
      refine ⟨?_, ?_, ?_, ?_, ?_, ?_, ?_, ?_, ?_, ?_⟩
      · rw [List.perm_iff_count]
        intro a
        have h2 := hcnt a
        rw [hr] at h2
        simp only [List.count_append, List.count_cons, List.count_nil] at h2 ⊢
        omega
      · simp only
        omega
      · intro e he
        simp only at he ⊢
        rcases List.mem_append.1 he with h | h
        · have := inv.logTime e h
          omega
        · rcases List.mem_singleton.1 h with rfl
          simp
      · intro n hn
        simp only at hn ⊢
        rcases List.mem_append.1 hn with h | h
        · obtain ⟨t, ht, hev⟩ := inv.succEv n h
          exact ⟨t, by omega, List.mem_append_left _ hev⟩
        · rcases List.mem_singleton.1 h with rfl
          exact ⟨st.time, by omega, List.mem_append_right _ (List.mem_singleton_self _)⟩
      · intro e he htr d hd
        simp only at he ⊢
        rcases List.mem_append.1 he with h | h
        · obtain ⟨t, ht, hev⟩ := inv.runDeps e h htr d hd
          exact ⟨t, ht, List.mem_append_left _ hev⟩
        · rcases List.mem_singleton.1 h with rfl
          cases htr
      · intro n hn
        rcases List.mem_append.1 hn with h | h
        · exact inv.succOut n h
        · rcases List.mem_singleton.1 h with rfl
          exact ho
      · intro n hn
        exact inv.failOut n hn
      · intro n hn
        simp only at hn ⊢
        rw [runEvents_append, inv.pendCount n hn]
        simp [runEvents, List.countP_cons]
      · intro n hn
        simp only at hn ⊢
        have hadd : runEvents (st.log ++ [⟨st.time, r, .toSucceeded⟩]) n =
            runEvents st.log n := by
          rw [runEvents_append]
          simp [runEvents, List.countP_cons]
        rw [hadd]
        rcases hn with hn | hn | hn
        · exact inv.doneCount n (Or.inl (hrest n hn))
        · rcases List.mem_append.1 hn with h | h
          · exact inv.doneCount n (Or.inr (Or.inl h))
          · rcases List.mem_singleton.1 h with rfl
            exact inv.doneCount n (Or.inl hrr)
        · exact inv.doneCount n (Or.inr (Or.inr hn))
      · have hadd : runTotal (st.log ++ [⟨st.time, r, .toSucceeded⟩]) =
            runTotal st.log := by
          rw [runTotal_append]
          simp [runTotal, List.countP_cons]
        simp only [hadd, List.length_append, List.length_cons, List.length_nil]
        have := inv.total
        rw [hr] at this
        simp only [List.length_cons] at this
        omega
    · have hc : complete s st =
          { pending := st.pending, running := rest
            succeeded := st.succeeded, failed := st.failed ++ [r]
            log := st.log ++ [⟨st.time, r, .toFailed⟩], time := st.time + 1 } := by
        rw [complete, hr]
        simp [ho]
      rw [hc]
      refine ⟨?_, ?_, ?_, ?_, ?_, ?_, ?_, ?_, ?_, ?_⟩
      · rw [List.perm_iff_count]
        intro a
        have h2 := hcnt a
        rw [hr] at h2
        simp only [List.count_append, List.count_cons, List.count_nil] at h2 ⊢
        omega
      · simp only
        omega
      · intro e he
        simp only at he ⊢
        rcases List.mem_append.1 he with h | h
        · have := inv.logTime e h
          omega
        · rcases List.mem_singleton.1 h with rfl
          simp
      · intro n hn
        simp only at hn ⊢
        obtain ⟨t, ht, hev⟩ := inv.succEv n hn
        exact ⟨t, by omega, List.mem_append_left _ hev⟩
      · intro e he htr d hd
        simp only at he ⊢
        rcases List.mem_append.1 he with h | h
        · obtain ⟨t, ht, hev⟩ := inv.runDeps e h htr d hd
          exact ⟨t, ht, List.mem_append_left _ hev⟩
        · rcases List.mem_singleton.1 h with rfl
          cases htr
      · intro n hn
        exact inv.succOut n hn
      · intro n hn
        rcases List.mem_append.1 hn with h | h
        · exact inv.failOut n h
        · rcases List.mem_singleton.1 h with rfl
          exact Bool.not_eq_true _ ▸ (by simpa using ho)
      · intro n hn
        simp only at hn ⊢
        rw [runEvents_append, inv.pendCount n hn]
        simp [runEvents, List.countP_cons]
      · intro n hn
        simp only at hn ⊢
        have hadd : runEvents (st.log ++ [⟨st.time, r, .toFailed⟩]) n =
            runEvents st.log n := by
          rw [runEvents_append]
          simp [runEvents, List.countP_cons]
        rw [hadd]
        rcases hn with hn | hn | hn
        · exact inv.doneCount n (Or.inl (hrest n hn))
        · exact inv.doneCount n (Or.inr (Or.inl hn))
        · rcases List.mem_append.1 hn with h | h
          · exact inv.doneCount n (Or.inr (Or.inr h))
          · rcases List.mem_singleton.1 h with rfl
            exact inv.doneCount n (Or.inl hrr)
      · have hadd : runTotal (st.log ++ [⟨st.time, r, .toFailed⟩]) =
            runTotal st.log := by
          rw [runTotal_append]
          simp [runTotal, List.countP_cons]
        simp only [hadd, List.length_append, List.length_cons, List.length_nil]
        have := inv.total
        rw [hr] at this
        simp only [List.length_cons] at this
        omega

/-- Terminal scheduler states: no worker is running and no pending task is
ready. -/
def Terminal (s : Scenario) (st : SchedState) : Prop :=
  st.running = [] ∧ readySet s st = []

/-- When nothing is admitted, admission leaves the state unchanged. -/
theorem admit_self {s : Scenario} {N : Nat} {st : SchedState}
    (h : readyTake s N st = []) : admitReady s N st = st := by
  cases st
  simp [admitReady, h, runEventsFor]

theorem execLoop_inv {s : Scenario} {N : Nat} (hnd : s.tasks.Nodup) :
    ∀ (fuel : Nat) (st : SchedState), Inv s N st →
      Inv s N (execLoop s N fuel st) := by
  intro fuel
  induction fuel with
  | zero => intro st inv; exact inv
  | succ fuel ih =>
    intro st inv
    rw [execLoop]
    by_cases hemp : (admitReady s N st).running.isEmpty
    · rw [if_pos hemp]
      exact admit_inv hnd inv
    · rw [if_neg hemp]
      exact ih _ (complete_inv (admit_inv hnd inv))

/-- Admission preserves the total amount of unfinished work. -/
theorem admit_measure {s : Scenario} {N : Nat} {st : SchedState}
    (hnd : s.tasks.Nodup) (inv : Inv s N st) :
    (admitReady s N st).pending.length + (admitReady s N st).running.length =
      st.pending.length + st.running.length := by
  obtain ⟨hpnodup, _⟩ := pending_facts hnd inv
  have hrsnodup : (readyTake s N st).Nodup := readyTake_nodup hpnodup
  have hkey := filter_remove_append_perm hpnodup hrsnodup
    (@readyTake_subset_pending s N st)
  have hlen := hkey.length_eq
  simp only [List.length_append] at hlen
  simp only [admitReady, List.length_append]
  omega

/-- With enough fuel the scheduler loop reaches a terminal state and the
invariant still holds there. -/
theorem execLoop_terminal {s : Scenario} {N : Nat} (hN : 1 ≤ N)
    (hnd : s.tasks.Nodup) :
    ∀ (fuel : Nat) (st : SchedState), Inv s N st →
      st.pending.length + st.running.length < fuel →
      Terminal s (execLoop s N fuel st) := by
  intro fuel
  induction fuel with
  | zero => intro st _ h; omega
  | succ fuel ih =>
    intro st inv hlt
    rw [execLoop]
    by_cases hemp : (admitReady s N st).running.isEmpty
    · rw [if_pos hemp]
      have hrun : st.running ++ readyTake s N st = [] := by
        simpa [admitReady] using (List.isEmpty_iff).1 hemp
      have h1 : st.running = [] := (List.append_eq_nil.1 hrun).1
      have h2 : readyTake s N st = [] := (List.append_eq_nil.1 hrun).2
      have hready : readySet s st = [] := by
        unfold readyTake at h2
        rcases (List.take_eq_nil_iff).1 h2 with h | h
        · rw [h1] at h
          simp at h
          omega
        · exact h
      rw [admit_self h2]
      exact ⟨h1, hready⟩
    · rw [if_neg hemp]
      have hms := admit_measure hnd inv
      rcases hrun : (admitReady s N st).running with _ | ⟨r, rest⟩
      · rw [hrun] at hemp
        simp at hemp
      · have hcm : (complete s (admitReady s N st)).pending.length +
            (complete s (admitReady s N st)).running.length =
            st.pending.length + st.running.length - 1 := by
          have houtcome := s.outcome r
          by_cases ho : s.outcome r = true
          · have : complete s (admitReady s N st) =
                { pending := (admitReady s N st).pending, running := rest
                  succeeded := (admitReady s N st).succeeded ++ [r]
                  failed := (admitReady s N st).failed
                  log := (admitReady s N st).log ++
                    [⟨(admitReady s N st).time, r, .toSucceeded⟩]
                  time := (admitReady s N st).time + 1 } := by
              rw [complete, hrun]
              simp [ho]
            rw [this]
            simp only
            have : (admitReady s N st).running.length = rest.length + 1 := by
              rw [hrun]; simp
            omega
          · have : complete s (admitReady s N st) =
                { pending := (admitReady s N st).pending, running := rest
                  succeeded := (admitReady s N st).succeeded
                  failed := (admitReady s N st).failed ++ [r]
                  log := (admitReady s N st).log ++
                    [⟨(admitReady s N st).time, r, .toFailed⟩]
                  time := (admitReady s N st).time + 1 } := by
              rw [complete, hrun]
              simp [ho]
            rw [this]
            simp only
            have : (admitReady s N st).running.length = rest.length + 1 := by
              rw [hrun]; simp
            omega
        have hpos : 1 ≤ st.pending.length + st.running.length := by
          have hra : (admitReady s N st).running.length = rest.length + 1 := by
            rw [hrun]; simp
          omega
        have harg : (complete s (admitReady s N st)).pending.length +
            (complete s (admitReady s N st)).running.length < fuel := by omega
        exact ih _ (complete_inv (admit_inv hnd inv)) harg

/-- A terminal state is a fixed point of the scheduler loop. -/
theorem execLoop_stable {s : Scenario} {N : Nat} {st : SchedState}
    (hterm : Terminal s st) : ∀ fuel, execLoop s N fuel st = st := by
  intro fuel
  cases fuel with
  | zero => rfl
  | succ fuel =>
    rw [execLoop]
    have h2 : readyTake s N st = [] := by
      unfold readyTake
      rw [hterm.2]
      simp
    rw [admit_self h2]
    rw [if_pos (by rw [hterm.1]; rfl)]

/-- Every state on the execution trace respects the concurrency bound. -/
theorem execTrace_bound {s : Scenario} {N : Nat} (hnd : s.tasks.Nodup) :
    ∀ (fuel : Nat) (st : SchedState), Inv s N st →
      ∀ st' ∈ execTrace s N fuel st, st'.running.length ≤ N := by
  intro fuel
  induction fuel with
  | zero =>
    intro st inv st' h
    rcases List.mem_singleton.1 h with rfl
    exact inv.bound
  | succ fuel ih =>
    intro st inv st' h
    rw [execTrace] at h
    by_cases hemp : (admitReady s N st).running.isEmpty
    · rw [if_pos hemp] at h
      rcases List.mem_cons.1 h with rfl | h'
      · exact inv.bound
      · rcases List.mem_singleton.1 h' with rfl
        exact (admit_inv hnd inv).bound
    · rw [if_neg hemp] at h
      rcases List.mem_cons.1 h with rfl | h'
      · exact inv.bound
      · rcases List.mem_cons.1 h' with rfl | h''
        · exact (admit_inv hnd inv).bound
        · exact ih _ (complete_inv (admit_inv hnd inv)) st' h''

/-! ## Graph builders embedded from the source

`SimpleFlowExperiment.run` (simple_flow_experiment.py, lines 333–360) and
`main` (flopoco_flow_experiment.py, lines 219–314) build the action registry
and dependency dictionary handed to the scheduler.  Only the task names and
dependency bindings matter for the graph; the attached closures are opaque
actions.  Bindings are listed in program order; repeated assignment to the
same key is resolved by `lookupLast` (Python dict semantics). -/

/-- From `SimpleFlowExperiment.run`: the dependency bindings.  For each pdk a
`render_cfg_<pdk>` task with no dependencies; for each (pdk, clock) case a
`flow_<pdk>_<tag>` task depending on the pdk's render task and a
`metrics_<pdk>_<tag>` task depending on the flow task.  `tags` stands for
the rendered `run_tag` strings of the clock list. -/
def simpleFlowDeps (pdks tags : List Name) : List (Name × List Name) :=
  pdks.map (fun p => ("render_cfg_" ++ p, ([] : List Name))) ++
  pdks.flatMap (fun p => tags.flatMap (fun t =>
    [(("flow_" ++ (p ++ "_" ++ t)), ["render_cfg_" ++ p]),
     (("metrics_" ++ (p ++ "_" ++ t)), ["flow_" ++ (p ++ "_" ++ t)])]))

/-- The action-registry key list of `SimpleFlowExperiment.run`: actions and
dependencies are assigned in lockstep under the same keys. -/
def simpleFlowTasks (pdks tags : List Name) : List Name :=
  (simpleFlowDeps pdks tags).map Prod.fst

/-- The scenario handed to the scheduler by `SimpleFlowExperiment.run`. -/
def simpleFlowScenario (pdks tags : List Name) (outcome : Name → Bool) :
    Scenario :=
  { tasks := simpleFlowTasks pdks tags
    deps := simpleFlowDeps pdks tags
    outcome := outcome }

/-- From `flopoco_flow_experiment.main`: the per-design case prefix
`f"{spec.name}_{case.pdk}_{case.run_tag}"`. -/
def casePrefix (x p t : Name) : Name := x ++ "_" ++ p ++ "_" ++ t

/-- From `flopoco_flow_experiment.main`: generation bindings per design
(`mkdir_src_*`, `flopoco_*`, `translate_*`). -/
def flopocoDesignBindings (x : Name) : List (Name × List Name) :=
  [("mkdir_src_" ++ x, []),
   ("flopoco_" ++ x, ["mkdir_src_" ++ x]),
   ("translate_" ++ x, ["flopoco_" ++ x])]

/-- From `flopoco_flow_experiment.main`: per-case bindings (`mkdir_*`,
`write_cfg_*`, `write_sdc_*`, `flow_*`, `metrics_*`). -/
def flopocoCaseBindings (x p t : Name) : List (Name × List Name) :=
  [("mkdir_" ++ casePrefix x p t, ["translate_" ++ x]),
   ("write_cfg_" ++ casePrefix x p t, ["mkdir_" ++ casePrefix x p t]),
   ("write_sdc_" ++ casePrefix x p t, ["mkdir_" ++ casePrefix x p t]),
   ("flow_" ++ casePrefix x p t,
     ["write_cfg_" ++ casePrefix x p t, "write_sdc_" ++ casePrefix x p t]),
   ("metrics_" ++ casePrefix x p t, ["flow_" ++ casePrefix x p t])]

/-- The `cases_with_specs` enumeration of `flopoco_flow_experiment.main`:
designs in config order, then `plan_cases`'s pdk-major, clock-minor sweep. -/
def flopocoTriples (designs pdks tags : List Name) :
    List (Name × Name × Name) :=
  designs.flatMap (fun x => pdks.flatMap (fun p => tags.map (fun t => (x, p, t))))

/-- From `flopoco_flow_experiment.main`: the full dependency dictionary in
assignment order — design bindings, then case bindings, then the final
`report` task depending on every `metrics_*` task. -/
def flopocoDeps (designs pdks tags : List Name) : List (Name × List Name) :=
  designs.flatMap flopocoDesignBindings ++
  (flopocoTriples designs pdks tags).flatMap
    (fun q => flopocoCaseBindings q.1 q.2.1 q.2.2) ++
  [("report", (flopocoTriples designs pdks tags).map
    (fun q => "metrics_" ++ casePrefix q.1 q.2.1 q.2.2))]

/-- The action-registry key list of `flopoco_flow_experiment.main`. -/
def flopocoTasks (designs pdks tags : List Name) : List Name :=
  (flopocoDeps designs pdks tags).map Prod.fst

/-- The scenario handed to the scheduler by `flopoco_flow_experiment.main`. -/
def flopocoScenario (designs pdks tags : List Name) (outcome : Name → Bool) :
    Scenario :=
  { tasks := flopocoTasks designs pdks tags
    deps := flopocoDeps designs pdks tags
    outcome := outcome }

/-- The construction contract the scheduler imposes on its input (spec §6):
every key of `dependencies` is a key of `actions`, every value references
only keys of `actions`, and the dependency relation is acyclic. -/
def ContractOK (s : Scenario) : Prop :=
  (∀ p ∈ s.deps, p.1 ∈ s.tasks) ∧
  (∀ p ∈ s.deps, ∀ d ∈ p.2, d ∈ s.tasks) ∧
  ¬ HasCycle s

/-! ## RSCM shift experiment embedded from the source
(`suf/experiments/rscm_shift_experiment.py`) -/

/-- From `rscm_shift_experiment.py`: a `FlowCase` as far as the orchestration
logic observes it (variant name, pdk, density, clock and rendered run tag). -/
structure RSCMFlowCase where
  variantName : Name
  pdk : Name
  density : ℚ
  clockNs : ℚ
  runTag : Name
deriving DecidableEq, Repr

/-- From `RSCMShiftExperiment.build_cases` (lines 286–301): materialise one
`FlowCase` per element of `itertools.product(variants, pdks, densities,
clock_periods_ns)`, in that (variant-major … clock-minor) order.  `fmtTag`
stands for the `f"d{int(density*100):02d}_c{clock_ns:.2f}"` formatting. -/
def buildCases (variants pdks : List Name) (densities clocks : List ℚ)
    (fmtTag : ℚ → ℚ → Name) : List RSCMFlowCase :=
  variants.flatMap fun v =>
    pdks.flatMap fun p =>
      densities.flatMap fun d =>
        clocks.map fun c => ⟨v, p, d, c, fmtTag d c⟩

/-- From `RSCMShiftExperiment._find_metric_file` (lines 335–377): the six
report/log/design paths probed for an existing metrics file, in order.
Paths are modelled as segment lists. -/
def metricCandidates (flowRoot : List Name) (expName : Name)
    (c : RSCMFlowCase) : List (List Name) :=
  [flowRoot ++ ["reports", c.pdk, c.variantName, c.runTag, "metrics.json"],
   flowRoot ++ ["reports", c.pdk, c.variantName, c.runTag, "metrics.csv"],
   flowRoot ++ ["reports", c.pdk, expName, c.variantName, "metrics.json"],
   flowRoot ++ ["logs", c.pdk, c.variantName, c.runTag, "6_report.json"],
   flowRoot ++ ["designs", c.pdk, expName, c.variantName, "metadata-base.json"],
   flowRoot ++ ["designs", c.pdk, expName, c.variantName,
     "metadata-base-ok.json"]]

/-- From `RSCMShiftExperiment._find_metric_file`: the first candidate path
that exists, if any.  `fileExists` abstracts the filesystem. -/
def findMetricFile (fileExists : List Name → Bool) (flowRoot : List Name)
    (expName : Name) (c : RSCMFlowCase) : Option (List Name) :=
  (metricCandidates flowRoot expName c).find? fileExists

/-- From `RSCMShiftExperiment._has_metrics`. -/
def hasMetrics (fileExists : List Name → Bool) (flowRoot : List Name)
    (expName : Name) (c : RSCMFlowCase) : Bool :=
  (findMetricFile fileExists flowRoot expName c).isSome

/-- Observable effect of one `runner` execution in `run_scenario`: the value
returned for collection, whether the `make` subprocess was launched
(`_invoke_flow`), and whether the exception was re-raised. -/
structure RunnerEffect where
  result : Option RSCMFlowCase
  invokedMake : Bool
  raised : Bool
deriving DecidableEq, Repr

/-- From `runner` inside `RSCMShiftExperiment.run_scenario` (lines 771–795):
skip and return the case when metrics already exist and `force` is unset;
otherwise invoke the flow; on `CalledProcessError` return `None` when
`continue_on_error` is set, else re-raise.  `invokeOk` abstracts whether the
`make … finish` subprocess exits successfully. -/
def runner (force continueOnError : Bool) (fileExists : List Name → Bool)
    (flowRoot : List Name) (expName : Name)
    (invokeOk : RSCMFlowCase → Bool) (c : RSCMFlowCase) : RunnerEffect :=
  if force = false ∧ hasMetrics fileExists flowRoot expName c = true then
    ⟨some c, false, false⟩
  else if invokeOk c then ⟨some c, true, false⟩
  else if continueOnError then ⟨none, true, false⟩
  else ⟨none, true, true⟩

/-- From `run_scenario` (lines 797–798): one future is submitted to the pool
per element of `build_cases`'s output, in that order. -/
def runScenarioSubmissions (variants pdks : List Name)
    (densities clocks : List ℚ) (fmtTag : ℚ → ℚ → Name) : List RSCMFlowCase :=
  buildCases variants pdks densities clocks fmtTag

/-- From `run_scenario` (lines 799–802): the `completed` list collects every
non-`None` runner result. -/
def runScenarioCompleted (force continueOnError : Bool)
    (fileExists : List Name → Bool) (flowRoot : List Name) (expName : Name)
    (invokeOk : RSCMFlowCase → Bool) (cases : List RSCMFlowCase) :
    List RSCMFlowCase :=
  cases.filterMap
    (fun c => (runner force continueOnError fileExists flowRoot expName
      invokeOk c).result)

/-- One row of `collect_metrics`'s JSON output, as far as the orchestration
is concerned: the identifying columns written for each completed case. -/
structure MetricsRow where
  variant : Name
  pdk : Name
  density : ℚ
  clockNs : ℚ
deriving DecidableEq, Repr

/-- From `RSCMShiftExperiment.collect_metrics` (lines 379–399): one row per
completed case, in order. -/
def collectRows (completed : List RSCMFlowCase) : List MetricsRow :=
  completed.map (fun c => ⟨c.variantName, c.pdk, c.density, c.clockNs⟩)

/-! ## String-level facts about generated task names -/

theorem string_append_assoc (a b c : Name) : a ++ b ++ c = a ++ (b ++ c) := by
  apply String.ext
  simp [String.data_append]

theorem string_append_cancel_left {q a b : Name} (h : q ++ a = q ++ b) :
    a = b := by
  apply String.ext
  have hd := congrArg String.data h
  rw [String.data_append, String.data_append] at hd
  exact List.append_cancel_left hd

theorem data_drop_append (q x : Name) (n : Nat) (h : q.data.length = n) :
    ((q ++ x).data).drop n = x.data := by
  rw [String.data_append, ← h, List.drop_left]

/-- A list that differs from `r` at index `i` is not a prefix of any
extension of `r`. -/
theorem not_prefix_of_mismatch {q r : List Char} {i : Nat} (hiq : i < q.length)
    (hir : i < r.length) (hne : q[i]? ≠ r[i]?) (x : List Char) :
    ¬ q <+: (r ++ x) := by
  rintro ⟨t, ht⟩
  have h1 : (q ++ t)[i]? = q[i]? := List.getElem?_append_left hiq
  have h2 : (r ++ x)[i]? = r[i]? := List.getElem?_append_left hir
  rw [ht] at h1
  exact hne (h1.symm.trans h2)

theorem isPrefixOf_data_append (q x : Name) :
    q.data.isPrefixOf ((q ++ x).data) = true := by
  rw [String.data_append, List.isPrefixOf_iff_prefix]
  exact List.prefix_append _ _

theorem pref_false (i : Nat) (q r x : Name) (hiq : i < q.data.length)
    (hir : i < r.data.length) (hne : (q.data)[i]? ≠ (r.data)[i]?) :
    q.data.isPrefixOf ((r ++ x).data) = false := by
  rw [String.data_append, ← Bool.not_eq_true, List.isPrefixOf_iff_prefix]
  exact not_prefix_of_mismatch hiq hir hne _

/-- Two generated names with incompatible literal heads differ. -/
theorem append_ne (q r x : Name) (i : Nat) (hiq : i < q.data.length)
    (hir : i < r.data.length) (hne : (q.data)[i]? ≠ (r.data)[i]?) :
    q ++ x ≠ r := by
  intro h
  have hd := congrArg String.data h
  rw [String.data_append] at hd
  have h1 : (q.data ++ x.data)[i]? = (q.data)[i]? := List.getElem?_append_left hiq
  rw [hd] at h1
  exact hne h1.symm

/-- Names generated under incompatible literal heads differ, whatever the
suffixes. -/
theorem append_ne_append (q r x y : Name) (i : Nat) (hiq : i < q.data.length)
    (hir : i < r.data.length) (hne : (q.data)[i]? ≠ (r.data)[i]?) :
    q ++ x ≠ r ++ y := by
  intro h
  have hd := congrArg String.data h
  rw [String.data_append, String.data_append] at hd
  have h1 : (q.data ++ x.data)[i]? = (q.data)[i]? := List.getElem?_append_left hiq
  have h2 : (r.data ++ y.data)[i]? = (r.data)[i]? := List.getElem?_append_left hir
  rw [hd, h2] at h1
  exact hne h1.symm

/-- Underscore count of character data: the quantity that decreases along
the design chain of the flopoco graph. -/
def ucD (l : List Char) : Nat := l.count '_'

theorem ucD_append (a b : List Char) : ucD (a ++ b) = ucD a + ucD b :=
  List.count_append _ _ _

theorem ucD_data_append (a b : Name) :
    ucD ((a ++ b).data) = ucD a.data + ucD b.data := by
  rw [String.data_append, ucD_append]

theorem ucD_casePrefix (x p t : Name) :
    ucD ((casePrefix x p t).data) =
      ucD x.data + ucD p.data + ucD t.data + 2 := by
  unfold casePrefix
  have h1 : ucD ("_" : Name).data = 1 := by decide
  simp only [ucD_data_append, h1]
  omega

/-- The admission-order measure on simple-flow task names: render tasks sit
below flow tasks, which sit below metrics tasks. -/
def simpleLvl (n : Name) : Nat :=
  if "flow_".data.isPrefixOf n.data then 1
  else if "metrics_".data.isPrefixOf n.data then 2
  else 0

theorem simpleLvl_render (p : Name) : simpleLvl ("render_cfg_" ++ p) = 0 := by
  unfold simpleLvl
  rw [pref_false 0 "flow_" "render_cfg_" p (by decide) (by decide) (by decide)]
  rw [pref_false 0 "metrics_" "render_cfg_" p (by decide) (by decide) (by decide)]
  simp

theorem simpleLvl_flow (c : Name) : simpleLvl ("flow_" ++ c) = 1 := by
  unfold simpleLvl
  rw [isPrefixOf_data_append "flow_" c]
  simp

theorem simpleLvl_metrics (c : Name) : simpleLvl ("metrics_" ++ c) = 2 := by
  unfold simpleLvl
  rw [pref_false 0 "flow_" "metrics_" c (by decide) (by decide) (by decide)]
  rw [isPrefixOf_data_append "metrics_" c]
  simp

/-- The measure on flopoco task names: within one case prefix the pipeline
stages ascend; crossing from a case back into a design's generation chain
strictly drops the underscore weight. -/
def nameMu (n : Name) : Nat :=
  if "flow_".data.isPrefixOf n.data then 16 * ucD (n.data.drop 5) + 5
  else if "metrics_".data.isPrefixOf n.data then 16 * ucD (n.data.drop 8) + 6
  else if "write_cfg_".data.isPrefixOf n.data then 16 * ucD (n.data.drop 10) + 4
  else if "write_sdc_".data.isPrefixOf n.data then 16 * ucD (n.data.drop 10) + 4
  else if "mkdir_".data.isPrefixOf n.data then 16 * ucD (n.data.drop 6) + 3
  else if "translate_".data.isPrefixOf n.data then 16 * ucD (n.data.drop 10) + 26
  else if "flopoco_".data.isPrefixOf n.data then 16 * ucD (n.data.drop 8) + 25
  else 0

theorem nameMu_flow (c : Name) : nameMu ("flow_" ++ c) = 16 * ucD c.data + 5 := by
  unfold nameMu
  rw [isPrefixOf_data_append "flow_" c, data_drop_append "flow_" c 5 (by decide)]
  simp

theorem nameMu_metrics (c : Name) :
    nameMu ("metrics_" ++ c) = 16 * ucD c.data + 6 := by
  unfold nameMu
  rw [pref_false 0 "flow_" "metrics_" c (by decide) (by decide) (by decide)]
  rw [isPrefixOf_data_append "metrics_" c,
    data_drop_append "metrics_" c 8 (by decide)]
  simp

theorem nameMu_wcfg (c : Name) :
    nameMu ("write_cfg_" ++ c) = 16 * ucD c.data + 4 := by
  unfold nameMu
  rw [pref_false 0 "flow_" "write_cfg_" c (by decide) (by decide) (by decide)]
  rw [pref_false 0 "metrics_" "write_cfg_" c (by decide) (by decide) (by decide)]
  rw [isPrefixOf_data_append "write_cfg_" c,
    data_drop_append "write_cfg_" c 10 (by decide)]
  simp

theorem nameMu_wsdc (c : Name) :
    nameMu ("write_sdc_" ++ c) = 16 * ucD c.data + 4 := by
  unfold nameMu
  rw [pref_false 0 "flow_" "write_sdc_" c (by decide) (by decide) (by decide)]
  rw [pref_false 0 "metrics_" "write_sdc_" c (by decide) (by decide) (by decide)]
  rw [pref_false 6 "write_cfg_" "write_sdc_" c (by decide) (by decide) (by decide)]
  rw [isPrefixOf_data_append "write_sdc_" c,
    data_drop_append "write_sdc_" c 10 (by decide)]
  simp

theorem nameMu_mkdir (c : Name) :
    nameMu ("mkdir_" ++ c) = 16 * ucD c.data + 3 := by
  unfold nameMu
  rw [pref_false 0 "flow_" "mkdir_" c (by decide) (by decide) (by decide)]
  rw [pref_false 1 "metrics_" "mkdir_" c (by decide) (by decide) (by decide)]
  rw [pref_false 0 "write_cfg_" "mkdir_" c (by decide) (by decide) (by decide)]
  rw [pref_false 0 "write_sdc_" "mkdir_" c (by decide) (by decide) (by decide)]
  rw [isPrefixOf_data_append "mkdir_" c,
    data_drop_append "mkdir_" c 6 (by decide)]
  simp

theorem nameMu_translate (c : Name) :
    nameMu ("translate_" ++ c) = 16 * ucD c.data + 26 := by
  unfold nameMu
  rw [pref_false 0 "flow_" "translate_" c (by decide) (by decide) (by decide)]
  rw [pref_false 0 "metrics_" "translate_" c (by decide) (by decide) (by decide)]
  rw [pref_false 0 "write_cfg_" "translate_" c (by decide) (by decide) (by decide)]
  rw [pref_false 0 "write_sdc_" "translate_" c (by decide) (by decide) (by decide)]
  rw [pref_false 0 "mkdir_" "translate_" c (by decide) (by decide) (by decide)]
  rw [isPrefixOf_data_append "translate_" c,
    data_drop_append "translate_" c 10 (by decide)]
  simp

theorem nameMu_flopoco (c : Name) :
    nameMu ("flopoco_" ++ c) = 16 * ucD c.data + 25 := by
  unfold nameMu
  rw [pref_false 3 "flow_" "flopoco_" c (by decide) (by decide) (by decide)]
  rw [pref_false 0 "metrics_" "flopoco_" c (by decide) (by decide) (by decide)]
  rw [pref_false 0 "write_cfg_" "flopoco_" c (by decide) (by decide) (by decide)]
  rw [pref_false 0 "write_sdc_" "flopoco_" c (by decide) (by decide) (by decide)]
  rw [pref_false 0 "mkdir_" "flopoco_" c (by decide) (by decide) (by decide)]
  rw [pref_false 0 "translate_" "flopoco_" c (by decide) (by decide) (by decide)]
  rw [isPrefixOf_data_append "flopoco_" c,
    data_drop_append "flopoco_" c 8 (by decide)]
  simp

theorem mkdir_src_split (x : Name) :
    "mkdir_src_" ++ x = "mkdir_" ++ ("src_" ++ x) := by
  rw [← string_append_assoc]
  rw [show ("mkdir_" : Name) ++ "src_" = "mkdir_src_" from by decide]

theorem nameMu_mkdir_src (x : Name) :
    nameMu ("mkdir_src_" ++ x) = 16 * ucD x.data + 19 := by
  rw [mkdir_src_split, nameMu_mkdir, ucD_data_append]
  have h1 : ucD ("src_" : Name).data = 1 := by decide
  rw [h1]
  omega

/-! ## Acyclicity of the built graphs -/

/-- A dependency step follows some binding of the dictionary. -/
theorem depStep_bindings {s : Scenario} {a b : Name} (h : DepStep s a b) :
    ∃ v, (a, v) ∈ s.deps ∧ b ∈ v := by
  unfold DepStep depsOf at h
  rcases hl : lookupLast a s.deps with _ | v
  · rw [hl] at h
    cases h
  · rw [hl] at h
    exact ⟨v, lookupLast_mem hl, h⟩

/-- A strictly decreasing measure on dependency edges excludes cycles. -/
theorem no_cycle_of_measure {s : Scenario} (mu : Name → Nat)
    (hdec : ∀ a b, DepStep s a b → mu b < mu a) : ∀ n, ¬ DepPath s n n := by
  have key : ∀ a b, DepPath s a b → mu b < mu a := by
    intro a b h
    induction h with
    | single h1 => exact hdec _ _ h1
    | tail _ h2 ih => exact Nat.lt_trans (hdec _ _ h2) ih
  intro n h
  exact Nat.lt_irrefl _ (key n n h)

/-- As above, but one distinguished task (the final `report`) may sit above
the measure, provided nothing depends on it. -/
theorem no_cycle_of_measure_except {s : Scenario} (mu : Name → Nat) (R : Name)
    (hdec : ∀ a b, DepStep s a b → a ≠ R → mu b < mu a)
    (hsink : ∀ a b, DepStep s a b → b ≠ R) : ∀ n, ¬ DepPath s n n := by
  have key : ∀ a b, DepPath s a b → a ≠ R → b ≠ R ∧ mu b < mu a := by
    intro a b h
    induction h with
    | single h1 => exact fun ha => ⟨hsink _ _ h1, hdec _ _ h1 ha⟩
    | tail _ h2 ih =>
      intro ha
      obtain ⟨hc, hm⟩ := ih ha
      exact ⟨hsink _ _ h2, Nat.lt_trans (hdec _ _ h2 hc) hm⟩
  intro n h
  by_cases hn : n = R
  · subst hn
    cases h with
    | single h1 => exact (hsink _ _ h1) rfl
    | tail _ h2 => exact (hsink _ _ h2) rfl
  · exact Nat.lt_irrefl _ (key n n h hn).2

/-- Shape analysis of the simple-flow dependency bindings. -/
theorem simpleFlowDeps_mem {pdks tags : List Name} {k : Name} {v : List Name}
    (h : (k, v) ∈ simpleFlowDeps pdks tags) :
    (∃ p ∈ pdks, k = "render_cfg_" ++ p ∧ v = []) ∨
    (∃ p ∈ pdks, ∃ t ∈ tags, k = "flow_" ++ (p ++ "_" ++ t) ∧
      v = ["render_cfg_" ++ p]) ∨
    (∃ p ∈ pdks, ∃ t ∈ tags, k = "metrics_" ++ (p ++ "_" ++ t) ∧
      v = ["flow_" ++ (p ++ "_" ++ t)]) := by
  unfold simpleFlowDeps at h
  rcases List.mem_append.1 h with h' | h'
  · obtain ⟨p, hp, heq⟩ := List.mem_map.1 h'
    left
    refine ⟨p, hp, ?_, ?_⟩
    · exact (congrArg Prod.fst heq).symm
    · exact (congrArg Prod.snd heq).symm
  · obtain ⟨p, hp, h2⟩ := List.mem_flatMap.1 h'
    obtain ⟨t, ht, h3⟩ := List.mem_flatMap.1 h2
    rcases List.mem_cons.1 h3 with h4 | h4
    · right; left
      refine ⟨p, hp, t, ht, ?_, ?_⟩
      · exact (congrArg Prod.fst h4)
      · exact (congrArg Prod.snd h4)
    · rcases List.mem_singleton.1 h4 with h5
      right; right
      refine ⟨p, hp, t, ht, ?_, ?_⟩
      · exact (congrArg Prod.fst h5)
      · exact (congrArg Prod.snd h5)

/-- Every dependency edge of the simple-flow graph strictly descends the
level measure. -/
theorem simpleFlow_edge_dec (pdks tags : List Name) (o : Name → Bool) :
    ∀ a b, DepStep (simpleFlowScenario pdks tags o) a b →
      simpleLvl b < simpleLvl a := by
  intro a b h
  obtain ⟨v, hv, hb⟩ := depStep_bindings h
  rcases simpleFlowDeps_mem hv with ⟨p, _, rfl, rfl⟩ |
    ⟨p, _, t, _, rfl, rfl⟩ | ⟨p, _, t, _, rfl, rfl⟩
  · cases hb
  · rcases List.mem_singleton.1 hb with rfl
    rw [simpleLvl_render, simpleLvl_flow]
    omega
  · rcases List.mem_singleton.1 hb with rfl
    rw [simpleLvl_flow, simpleLvl_metrics]
    omega

theorem simpleFlow_no_cycle (pdks tags : List Name) (o : Name → Bool) :
    ¬ HasCycle (simpleFlowScenario pdks tags o) := by
  rintro ⟨n, _, hp⟩
  exact no_cycle_of_measure simpleLvl (simpleFlow_edge_dec pdks tags o) n hp

/-- `SimpleFlowExperiment.run` builds a graph satisfying the scheduler's
construction contract. -/
theorem simpleFlow_contract (pdks tags : List Name) (o : Name → Bool) :
    ContractOK (simpleFlowScenario pdks tags o) := by
  refine ⟨?_, ?_, simpleFlow_no_cycle pdks tags o⟩
  · intro p hp
    exact List.mem_map_of_mem Prod.fst hp
  · intro q hq d hd
    have hmem : ∀ k v, (k, v) ∈ simpleFlowDeps pdks tags →
        k ∈ simpleFlowTasks pdks tags := by
      intro k v hkv
      exact List.mem_map_of_mem Prod.fst hkv
    rcases @simpleFlowDeps_mem pdks tags q.1 q.2 hq with
      ⟨p, hp, _, hv⟩ | ⟨p, hp, t, ht, _, hv⟩ | ⟨p, hp, t, ht, _, hv⟩
    · rw [hv] at hd
      cases hd
    · rw [hv] at hd
      rcases List.mem_singleton.1 hd with rfl
      refine hmem _ [] ?_
      unfold simpleFlowDeps
      exact List.mem_append_left _ (List.mem_map.2 ⟨p, hp, rfl⟩)
    · rw [hv] at hd
      rcases List.mem_singleton.1 hd with rfl
      refine hmem _ ["render_cfg_" ++ p] ?_
      unfold simpleFlowDeps
      refine List.mem_append_right _ ?_
      refine List.mem_flatMap.2 ⟨p, hp, ?_⟩
      refine List.mem_flatMap.2 ⟨t, ht, ?_⟩
      exact List.mem_cons_self _ _

theorem flopocoTriples_mem {designs pdks tags : List Name}
    {q : Name × Name × Name} (h : q ∈ flopocoTriples designs pdks tags) :
    q.1 ∈ designs ∧ q.2.1 ∈ pdks ∧ q.2.2 ∈ tags := by
  unfold flopocoTriples at h
  obtain ⟨x, hx, h2⟩ := List.mem_flatMap.1 h
  obtain ⟨p, hp, h3⟩ := List.mem_flatMap.1 h2
  obtain ⟨t, ht, h4⟩ := List.mem_map.1 h3
  rw [← h4]
  exact ⟨hx, hp, ht⟩

theorem flopocoTriples_intro {designs pdks tags : List Name} {x p t : Name}
    (hx : x ∈ designs) (hp : p ∈ pdks) (ht : t ∈ tags) :
    (x, p, t) ∈ flopocoTriples designs pdks tags := by
  unfold flopocoTriples
  refine List.mem_flatMap.2 ⟨x, hx, ?_⟩
  refine List.mem_flatMap.2 ⟨p, hp, ?_⟩
  exact List.mem_map.2 ⟨t, ht, rfl⟩

/-- Design-stage bindings are part of the flopoco dictionary. -/
theorem flopoco_design_binding_mem {designs pdks tags : List Name} {x : Name}
    (hx : x ∈ designs) {kv : Name × List Name}
    (h : kv ∈ flopocoDesignBindings x) : kv ∈ flopocoDeps designs pdks tags := by
  unfold flopocoDeps
  refine List.mem_append_left _ (List.mem_append_left _ ?_)
  exact List.mem_flatMap.2 ⟨x, hx, h⟩

/-- Case-stage bindings are part of the flopoco dictionary. -/
theorem flopoco_case_binding_mem {designs pdks tags : List Name}
    {x p t : Name} (hq : (x, p, t) ∈ flopocoTriples designs pdks tags)
    {kv : Name × List Name} (h : kv ∈ flopocoCaseBindings x p t) :
    kv ∈ flopocoDeps designs pdks tags := by
  unfold flopocoDeps
  refine List.mem_append_left _ (List.mem_append_right _ ?_)
  exact List.mem_flatMap.2 ⟨(x, p, t), hq, h⟩

/-- Shape analysis of the flopoco dependency bindings. -/
theorem flopocoDeps_mem {designs pdks tags : List Name} {k : Name}
    {v : List Name} (h : (k, v) ∈ flopocoDeps designs pdks tags) :
    (∃ x ∈ designs,
      (k = "mkdir_src_" ++ x ∧ v = []) ∨
      (k = "flopoco_" ++ x ∧ v = ["mkdir_src_" ++ x]) ∨
      (k = "translate_" ++ x ∧ v = ["flopoco_" ++ x])) ∨
    (∃ x p t, (x, p, t) ∈ flopocoTriples designs pdks tags ∧
      ((k = "mkdir_" ++ casePrefix x p t ∧ v = ["translate_" ++ x]) ∨
       (k = "write_cfg_" ++ casePrefix x p t ∧
         v = ["mkdir_" ++ casePrefix x p t]) ∨
       (k = "write_sdc_" ++ casePrefix x p t ∧
         v = ["mkdir_" ++ casePrefix x p t]) ∨
       (k = "flow_" ++ casePrefix x p t ∧
         v = ["write_cfg_" ++ casePrefix x p t,
              "write_sdc_" ++ casePrefix x p t]) ∨
       (k = "metrics_" ++ casePrefix x p t ∧
         v = ["flow_" ++ casePrefix x p t]))) ∨
    (k = "report" ∧ v = (flopocoTriples designs pdks tags).map
      (fun q => "metrics_" ++ casePrefix q.1 q.2.1 q.2.2)) := by
  unfold flopocoDeps at h
  rcases List.mem_append.1 h with h' | h'
  · rcases List.mem_append.1 h' with h'' | h''
    · obtain ⟨x, hx, h2⟩ := List.mem_flatMap.1 h''
      left
      refine ⟨x, hx, ?_⟩
      unfold flopocoDesignBindings at h2
      rcases List.mem_cons.1 h2 with h3 | h3
      · exact Or.inl ⟨congrArg Prod.fst h3, congrArg Prod.snd h3⟩
      rcases List.mem_cons.1 h3 with h4 | h4
      · exact Or.inr (Or.inl ⟨congrArg Prod.fst h4, congrArg Prod.snd h4⟩)
      rcases List.mem_singleton.1 h4 with h5
      exact Or.inr (Or.inr ⟨congrArg Prod.fst h5, congrArg Prod.snd h5⟩)
    · obtain ⟨q, hq, h2⟩ := List.mem_flatMap.1 h''
      right; left
      refine ⟨q.1, q.2.1, q.2.2, by simpa using hq, ?_⟩
      unfold flopocoCaseBindings at h2
      rcases List.mem_cons.1 h2 with h3 | h3
      · exact Or.inl ⟨congrArg Prod.fst h3, congrArg Prod.snd h3⟩
      rcases List.mem_cons.1 h3 with h4 | h4
      · exact Or.inr (Or.inl ⟨congrArg Prod.fst h4, congrArg Prod.snd h4⟩)
      rcases List.mem_cons.1 h4 with h5 | h5
      · exact Or.inr (Or.inr (Or.inl
          ⟨congrArg Prod.fst h5, congrArg Prod.snd h5⟩))
      rcases List.mem_cons.1 h5 with h6 | h6
      · exact Or.inr (Or.inr (Or.inr (Or.inl
          ⟨congrArg Prod.fst h6, congrArg Prod.snd h6⟩)))
      rcases List.mem_singleton.1 h6 with h7
      exact Or.inr (Or.inr (Or.inr (Or.inr
        ⟨congrArg Prod.fst h7, congrArg Prod.snd h7⟩)))
  · rcases List.mem_singleton.1 h' with h2
    exact Or.inr (Or.inr ⟨congrArg Prod.fst h2, congrArg Prod.snd h2⟩)

/-- No task of the flopoco graph depends on `report`. -/
theorem flopoco_report_sink (designs pdks tags : List Name) (o : Name → Bool) :
    ∀ a b, DepStep (flopocoScenario designs pdks tags o) a b →
      b ≠ "report" := by
  intro a b h
  obtain ⟨v, hv, hb⟩ := depStep_bindings h
  rcases flopocoDeps_mem hv with ⟨x, _, hc⟩ | ⟨x, p, t, _, hc⟩ | ⟨_, hveq⟩
  · rcases hc with ⟨_, rfl⟩ | ⟨_, rfl⟩ | ⟨_, rfl⟩
    · cases hb
    · rcases List.mem_singleton.1 hb with rfl
      exact append_ne "mkdir_src_" "report" x 0 (by decide) (by decide) (by decide)
    · rcases List.mem_singleton.1 hb with rfl
      exact append_ne "flopoco_" "report" x 0 (by decide) (by decide) (by decide)
  · rcases hc with ⟨_, rfl⟩ | ⟨_, rfl⟩ | ⟨_, rfl⟩ | ⟨_, rfl⟩ | ⟨_, rfl⟩
    · rcases List.mem_singleton.1 hb with rfl
      exact append_ne "translate_" "report" x 0 (by decide) (by decide) (by decide)
    · rcases List.mem_singleton.1 hb with rfl
      exact append_ne "mkdir_" "report" _ 0 (by decide) (by decide) (by decide)
    · rcases List.mem_singleton.1 hb with rfl
      exact append_ne "mkdir_" "report" _ 0 (by decide) (by decide) (by decide)
    · rcases List.mem_cons.1 hb with rfl | hb'
      · exact append_ne "write_cfg_" "report" _ 0 (by decide) (by decide) (by decide)
      · rcases List.mem_singleton.1 hb' with rfl
        exact append_ne "write_sdc_" "report" _ 0 (by decide) (by decide) (by decide)
    · rcases List.mem_singleton.1 hb with rfl
      exact append_ne "flow_" "report" _ 0 (by decide) (by decide) (by decide)
  · rw [hveq] at hb
    obtain ⟨q, _, hq2⟩ := List.mem_map.1 hb
    rw [← hq2]
    exact append_ne "metrics_" "report" _ 0 (by decide) (by decide) (by decide)

/-- Away from `report`, every dependency edge of the flopoco graph strictly
descends the `nameMu` measure. -/
theorem flopoco_edge_dec (designs pdks tags : List Name) (o : Name → Bool) :
    ∀ a b, DepStep (flopocoScenario designs pdks tags o) a b →
      a ≠ "report" → nameMu b < nameMu a := by
  intro a b h hrep
  obtain ⟨v, hv, hb⟩ := depStep_bindings h
  rcases flopocoDeps_mem hv with ⟨x, _, hc⟩ | ⟨x, p, t, _, hc⟩ | ⟨hk, _⟩
  · rcases hc with ⟨rfl, rfl⟩ | ⟨rfl, rfl⟩ | ⟨rfl, rfl⟩
    · cases hb
    · rcases List.mem_singleton.1 hb with rfl
      rw [nameMu_mkdir_src, nameMu_flopoco]
      omega
    · rcases List.mem_singleton.1 hb with rfl
      rw [nameMu_flopoco, nameMu_translate]
      omega
  · have hP := ucD_casePrefix x p t
    rcases hc with ⟨rfl, rfl⟩ | ⟨rfl, rfl⟩ | ⟨rfl, rfl⟩ | ⟨rfl, rfl⟩ | ⟨rfl, rfl⟩
    · rcases List.mem_singleton.1 hb with rfl
      rw [nameMu_translate, nameMu_mkdir, hP]
      omega
    · rcases List.mem_singleton.1 hb with rfl
      rw [nameMu_mkdir, nameMu_wcfg]
      omega
    · rcases List.mem_singleton.1 hb with rfl
      rw [nameMu_mkdir, nameMu_wsdc]
      omega
    · rcases List.mem_cons.1 hb with rfl | hb'
      · rw [nameMu_wcfg, nameMu_flow]
        omega
      · rcases List.mem_singleton.1 hb' with rfl
        rw [nameMu_wsdc, nameMu_flow]
        omega
    · rcases List.mem_singleton.1 hb with rfl
      rw [nameMu_flow, nameMu_metrics]
      omega
  · exact absurd hk hrep

theorem flopoco_no_cycle (designs pdks tags : List Name) (o : Name → Bool) :
    ¬ HasCycle (flopocoScenario designs pdks tags o) := by
  rintro ⟨n, _, hp⟩
  exact no_cycle_of_measure_except nameMu "report"
    (flopoco_edge_dec designs pdks tags o)
    (flopoco_report_sink designs pdks tags o) n hp

/-- `flopoco_flow_experiment.main` builds a graph satisfying the scheduler's
construction contract. -/
theorem flopoco_contract (designs pdks tags : List Name) (o : Name → Bool) :
    ContractOK (flopocoScenario designs pdks tags o) := by
  refine ⟨?_, ?_, flopoco_no_cycle designs pdks tags o⟩
  · intro p hp
    exact List.mem_map_of_mem Prod.fst hp
  · intro q hq d hd
    have hkeys : ∀ kv : Name × List Name, kv ∈ flopocoDeps designs pdks tags →
        kv.1 ∈ flopocoTasks designs pdks tags := by
      intro kv hkv
      exact List.mem_map_of_mem Prod.fst hkv
    rcases @flopocoDeps_mem designs pdks tags q.1 q.2 hq with
      ⟨x, hx, hc⟩ | ⟨x, p, t, htr, hc⟩ | ⟨_, hveq⟩
    · rcases hc with ⟨_, hv⟩ | ⟨_, hv⟩ | ⟨_, hv⟩
      · rw [hv] at hd
        cases hd
      · rw [hv] at hd
        rcases List.mem_singleton.1 hd with rfl
        exact hkeys _ (flopoco_design_binding_mem hx (List.mem_cons_self _ _))
      · rw [hv] at hd
        rcases List.mem_singleton.1 hd with rfl
        exact hkeys _ (flopoco_design_binding_mem hx
          (List.mem_cons_of_mem _ (List.mem_cons_self _ _)))
    · have hx : x ∈ designs := (flopocoTriples_mem htr).1
      rcases hc with ⟨_, hv⟩ | ⟨_, hv⟩ | ⟨_, hv⟩ | ⟨_, hv⟩ | ⟨_, hv⟩
      · rw [hv] at hd
        rcases List.mem_singleton.1 hd with rfl
        exact hkeys _ (flopoco_design_binding_mem hx
          (List.mem_cons_of_mem _ (List.mem_cons_of_mem _
            (List.mem_singleton_self _))))
      · rw [hv] at hd
        rcases List.mem_singleton.1 hd with rfl
        exact hkeys _ (flopoco_case_binding_mem htr (List.mem_cons_self _ _))
      · rw [hv] at hd
        rcases List.mem_singleton.1 hd with rfl
        exact hkeys _ (flopoco_case_binding_mem htr (List.mem_cons_self _ _))
      · rw [hv] at hd
        rcases List.mem_cons.1 hd with rfl | hd'
        · exact hkeys _ (flopoco_case_binding_mem htr
            (List.mem_cons_of_mem _ (List.mem_cons_self _ _)))
        · rcases List.mem_singleton.1 hd' with rfl
          exact hkeys _ (flopoco_case_binding_mem htr
            (List.mem_cons_of_mem _ (List.mem_cons_of_mem _
              (List.mem_cons_self _ _))))
      · rw [hv] at hd
        rcases List.mem_singleton.1 hd with rfl
        exact hkeys _ (flopoco_case_binding_mem htr
          (List.mem_cons_of_mem _ (List.mem_cons_of_mem _
            (List.mem_cons_of_mem _ (List.mem_cons_self _ _)))))
    · rw [hveq] at hd
      obtain ⟨q', hq', hq2⟩ := List.mem_map.1 hd
      rw [← hq2]
      exact hkeys _ (flopoco_case_binding_mem
        (by simpa using hq')
        (List.mem_cons_of_mem _ (List.mem_cons_of_mem _
          (List.mem_cons_of_mem _ (List.mem_cons_of_mem _
            (List.mem_singleton_self _))))))

/-! ## Terminal-state analysis of the scheduler -/

theorem initInv_measure (s : Scenario) :
    (initState s).pending.length + (initState s).running.length =
      s.tasks.length := by
  simp [initState]

theorem finalSchedState_inv {s : Scenario} {N : Nat} (hnd : s.tasks.Nodup) :
    Inv s N (finalSchedState s N) :=
  execLoop_inv hnd _ _ (initInv s N)

theorem finalSchedState_terminal {s : Scenario} {N : Nat} (hN : 1 ≤ N)
    (hnd : s.tasks.Nodup) : Terminal s (finalSchedState s N) := by
  refine execLoop_terminal hN hnd _ _ (initInv s N) ?_
  rw [initInv_measure]
  omega

theorem run_eq_ok {s : Scenario} {N : Nat} {l : List Name}
    (hval : validate s = .ok l) :
    run s N = .ok
      { final := if (finalSchedState s N).pending.isEmpty &&
            (finalSchedState s N).failed.isEmpty then .success else .stalled
        succeeded := (finalSchedState s N).succeeded
        failed := (finalSchedState s N).failed
        unreachable := (finalSchedState s N).pending
        log := (finalSchedState s N).log } := by
  unfold run
  rw [hval]

/-- At a terminal state, every registered task whose action and whose
transitive dependencies' actions all succeed has itself succeeded: failures
do not block unrelated branches. -/
theorem terminal_progress {s : Scenario} {N : Nat} {st : SchedState}
    {l : List Name} (hnd : s.tasks.Nodup) (hval : validate s = .ok l)
    (inv : Inv s N st) (hterm : Terminal s st) :
    ∀ n ∈ s.tasks, s.outcome n = true →
      (∀ m, DepPath s n m → s.outcome m = true) → n ∈ st.succeeded := by
  obtain ⟨hmiss, hlnd, htopo, hsub⟩ := validate_ok hval
  have hready : ∀ x ∈ st.pending, ∃ d ∈ depsOf s x, d ∉ st.succeeded := by
    intro x hx
    have hfil := hterm.2
    unfold readySet at hfil
    by_contra hc
    push_neg at hc
    have hall : (depsOf s x).all (fun d => d ∈ st.succeeded) = true := by
      rw [List.all_eq_true]
      intro d hd
      simpa using hc d hd
    have hxin : x ∈ st.pending.filter
        (fun n => (depsOf s n).all (fun d => d ∈ st.succeeded)) :=
      List.mem_filter.2 ⟨hx, hall⟩
    rw [hfil] at hxin
    cases hxin
  have main : ∀ k, ∀ n ∈ s.tasks, s.outcome n = true →
      (∀ m, DepPath s n m → s.outcome m = true) →
      l.length - rankIn l n ≤ k → n ∈ st.succeeded := by
    intro k
    induction k with
    | zero =>
      intro n hn _ _ hk
      have := rankIn_lt_length (hsub n hn)
      omega
    | succ k ih =>
      intro n hn ho hpath hk
      have hparts : n ∈ st.pending ++ st.running ++ st.succeeded ++ st.failed :=
        inv.perm.mem_iff.2 hn
      rcases List.mem_append.1 hparts with h1 | hf
      · rcases List.mem_append.1 h1 with h2 | hsc
        · rcases List.mem_append.1 h2 with hp | hr
          · obtain ⟨d, hd, hdns⟩ := hready n hp
            have hdt : d ∈ s.tasks := depsOf_subset_tasks hmiss hd
            have hod : s.outcome d = true :=
              hpath d (Relation.TransGen.single hd)
            have hpathd : ∀ m, DepPath s d m → s.outcome m = true :=
              fun m hm => hpath m (Relation.TransGen.head hd hm)
            obtain ⟨hdl, hrk⟩ := topo_rank_lt htopo hlnd (hsub n hn) hd
            have hrkd := rankIn_lt_length hdl
            have hk' : l.length - rankIn l d ≤ k := by omega
            exact absurd (ih d hdt hod hpathd hk') hdns
          · rw [hterm.1] at hr
            cases hr
        · exact hsc
      · have := inv.failOut n hf
        rw [ho] at this
        cases this
  intro n hn ho hpath
  exact main l.length n hn ho hpath (by omega)

theorem run_ok_cases {s : Scenario} {N : Nat} {rep : RunReport}
    (h : run s N = .ok rep) :
    rep.succeeded = (finalSchedState s N).succeeded ∧
    rep.failed = (finalSchedState s N).failed ∧
    rep.unreachable = (finalSchedState s N).pending ∧
    rep.log = (finalSchedState s N).log ∧
    ∃ l, validate s = .ok l := by
  unfold run at h
  rcases hval : validate s with e | l
  · rw [hval] at h
    cases h
  · rw [hval] at h
    cases h
    exact ⟨rfl, rfl, rfl, rfl, l, rfl⟩

/-- Disjointness of the status lists at any invariant state. -/
theorem parts_disjoint {s : Scenario} {N : Nat} {st : SchedState}
    (hnd : s.tasks.Nodup) (inv : Inv s N st) :
    (∀ x ∈ st.succeeded, x ∉ st.failed) ∧
    (∀ x ∈ st.pending, x ∉ st.succeeded ∧ x ∉ st.failed) := by
  have h : (st.pending ++ st.running ++ st.succeeded ++ st.failed).Nodup :=
    inv.perm.nodup_iff.2 hnd
  rw [List.append_assoc, List.append_assoc, List.nodup_append] at h
  obtain ⟨_, h2, h3⟩ := h
  rw [List.nodup_append] at h2
  obtain ⟨_, h4, _⟩ := h2
  rw [List.nodup_append] at h4
  obtain ⟨_, _, h5⟩ := h4
  constructor
  · intro x hx
    exact h5 hx
  · intro x hx
    have hx' := h3 hx
    constructor
    · intro hc
      exact hx' (List.mem_append_right _ (List.mem_append_left _ hc))
    · intro hc
      exact hx' (List.mem_append_right _ (List.mem_append_right _ hc))

/-! ## Lookup characterisation for the built graphs -/

theorem lookupLast_isSome_of_mem {n : Name} {v : List Name} :
    ∀ {l : List (Name × List Name)}, (n, v) ∈ l →
      ∃ w, lookupLast n l = some w := by
  intro l
  induction l with
  | nil => intro h; cases h
  | cons p rest ih =>
    obtain ⟨k, u⟩ := p
    intro h
    rw [lookupLast]
    rcases hr : lookupLast n rest with _ | w
    · simp only
      rcases List.mem_cons.1 h with h1 | h1
      · have hk : k = n := (congrArg Prod.fst h1).symm
        rw [if_pos hk]
        exact ⟨u, rfl⟩
      · obtain ⟨w, hw⟩ := ih h1
        rw [hw] at hr
        cases hr
    · exact ⟨w, rfl⟩

/-- In the simple-flow graph, every `metrics_*` task depends exactly on its
case's `flow_*` task. -/
theorem simpleFlow_depsOf_metrics (pdks tags : List Name) (o : Name → Bool)
    {p t : Name} (hp : p ∈ pdks) (ht : t ∈ tags) :
    depsOf (simpleFlowScenario pdks tags o) ("metrics_" ++ (p ++ "_" ++ t)) =
      ["flow_" ++ (p ++ "_" ++ t)] := by
  have hbind : ("metrics_" ++ (p ++ "_" ++ t), ["flow_" ++ (p ++ "_" ++ t)]) ∈
      simpleFlowDeps pdks tags := by
    unfold simpleFlowDeps
    refine List.mem_append_right _ ?_
    refine List.mem_flatMap.2 ⟨p, hp, ?_⟩
    refine List.mem_flatMap.2 ⟨t, ht, ?_⟩
    exact List.mem_cons_of_mem _ (List.mem_singleton_self _)
  obtain ⟨w, hw⟩ := lookupLast_isSome_of_mem hbind
  have hmemw := lookupLast_mem hw
  unfold depsOf
  show (lookupLast _ (simpleFlowDeps pdks tags)).getD [] = _
  rw [hw]
  rcases @simpleFlowDeps_mem pdks tags _ w hmemw with
    ⟨p1, _, hk, _⟩ | ⟨p1, _, t1, _, hk, _⟩ | ⟨p1, _, t1, _, hk, hv⟩
  · exact absurd hk.symm
      (append_ne_append "render_cfg_" "metrics_" p1 (p ++ "_" ++ t) 0
        (by decide) (by decide) (by decide))
  · exact absurd hk.symm
      (append_ne_append "flow_" "metrics_" (p1 ++ "_" ++ t1) (p ++ "_" ++ t) 0
        (by decide) (by decide) (by decide))
  · have hc : p1 ++ "_" ++ t1 = p ++ "_" ++ t := string_append_cancel_left hk.symm
    rw [hv, hc]
    rfl

/-- In the simple-flow graph, when case names identify the pdk uniquely each
`flow_*` task depends exactly on its pdk's `render_cfg_*` task. -/
theorem simpleFlow_depsOf_flow (pdks tags : List Name) (o : Name → Bool)
    {p t : Name} (hp : p ∈ pdks) (ht : t ∈ tags)
    (hinj : ∀ p1 ∈ pdks, ∀ t1 ∈ tags, ∀ p2 ∈ pdks, ∀ t2 ∈ tags,
      p1 ++ "_" ++ t1 = p2 ++ "_" ++ t2 → p1 = p2) :
    depsOf (simpleFlowScenario pdks tags o) ("flow_" ++ (p ++ "_" ++ t)) =
      ["render_cfg_" ++ p] := by
  have hbind : ("flow_" ++ (p ++ "_" ++ t), ["render_cfg_" ++ p]) ∈
      simpleFlowDeps pdks tags := by
    unfold simpleFlowDeps
    refine List.mem_append_right _ ?_
    refine List.mem_flatMap.2 ⟨p, hp, ?_⟩
    refine List.mem_flatMap.2 ⟨t, ht, ?_⟩
    exact List.mem_cons_self _ _
  obtain ⟨w, hw⟩ := lookupLast_isSome_of_mem hbind
  have hmemw := lookupLast_mem hw
  unfold depsOf
  show (lookupLast _ (simpleFlowDeps pdks tags)).getD [] = _
  rw [hw]
  rcases @simpleFlowDeps_mem pdks tags _ w hmemw with
    ⟨p1, _, hk, _⟩ | ⟨p1, hp1, t1, ht1, hk, hv⟩ | ⟨p1, _, t1, _, hk, _⟩
  · exact absurd hk.symm
      (append_ne_append "render_cfg_" "flow_" p1 (p ++ "_" ++ t) 0
        (by decide) (by decide) (by decide))
  · have hc : p1 ++ "_" ++ t1 = p ++ "_" ++ t := string_append_cancel_left hk.symm
    rw [hv, hinj p1 hp1 t1 ht1 p hp t ht hc]
    rfl
  · exact absurd hk
      (append_ne_append "flow_" "metrics_" (p ++ "_" ++ t) (p1 ++ "_" ++ t1) 0
        (by decide) (by decide) (by decide))

/-! ## Observational determinism of the scheduler -/

/-- The admission order of a run: tasks in the order of their
`pending → running` events. -/
def admissionSeq (s : Scenario) (N : Nat) : List Name :=
  ((finalSchedState s N).log.filter
    (fun e => e.tr = Transition.toRunning)).map Event.task

theorem complete_outcome_congr (t : List Name) (d : List (Name × List Name))
    (o1 o2 : Name → Bool) (h : ∀ n, o1 n = o2 n) (st : SchedState) :
    complete ⟨t, d, o1⟩ st = complete ⟨t, d, o2⟩ st := by
  unfold complete
  rcases st.running with _ | ⟨r, rest⟩
  · rfl
  · simp only
    by_cases ho : Scenario.outcome ⟨t, d, o1⟩ r = true
    · rw [if_pos ho, if_pos (show Scenario.outcome ⟨t, d, o2⟩ r = true from by
        show o2 r = true
        rw [← h r]
        exact ho)]
    · rw [if_neg ho, if_neg (show ¬ Scenario.outcome ⟨t, d, o2⟩ r = true from by
        show ¬ o2 r = true
        rw [← h r]
        exact ho)]

theorem execLoop_outcome_congr (t : List Name) (d : List (Name × List Name))
    (o1 o2 : Name → Bool) (h : ∀ n, o1 n = o2 n) (N : Nat) :
    ∀ fuel st, execLoop ⟨t, d, o1⟩ N fuel st = execLoop ⟨t, d, o2⟩ N fuel st := by
  intro fuel
  induction fuel with
  | zero => intro st; rfl
  | succ fuel ih =>
    intro st
    rw [execLoop, execLoop]
    have hadm : admitReady ⟨t, d, o1⟩ N st = admitReady ⟨t, d, o2⟩ N st := rfl
    rw [← hadm]
    by_cases hemp : (admitReady ⟨t, d, o1⟩ N st).running.isEmpty
    · rw [if_pos hemp, if_pos hemp]
    · rw [if_neg hemp, if_neg hemp,
        complete_outcome_congr t d o1 o2 h, ih]

/-- The admission order is a function of the registry, the dependency graph
and the actions' observable outcomes alone. -/
theorem admissionSeq_congr (t : List Name) (d : List (Name × List Name))
    (o1 o2 : Name → Bool) (h : ∀ n, o1 n = o2 n) (N : Nat) :
    admissionSeq ⟨t, d, o1⟩ N = admissionSeq ⟨t, d, o2⟩ N := by
  unfold admissionSeq finalSchedState
  rw [execLoop_outcome_congr t d o1 o2 h]
  rfl

/-! ## Enumeration order and size of `build_cases` -/

theorem length_flatMap_const {α β : Type} {l : List α} {f : α → List β}
    {K : Nat} (hK : ∀ x ∈ l, (f x).length = K) :
    (l.flatMap f).length = l.length * K := by
  induction l with
  | nil => simp
  | cons x xs ih =>
    rw [List.flatMap_cons, List.length_append, hK x (List.mem_cons_self _ _),
      ih (fun y hy => hK y (List.mem_cons_of_mem _ hy))]
    simp [Nat.succ_mul]
    omega

theorem getElem?_flatMap_const {α β : Type} {l : List α} {f : α → List β}
    {K : Nat} (hK : ∀ x ∈ l, (f x).length = K) :
    ∀ (a b : Nat) (ha : a < l.length), b < K →
      (l.flatMap f)[a * K + b]? = (f (l.get ⟨a, ha⟩))[b]? := by
  induction l with
  | nil => intro a b ha; cases ha
  | cons x xs ih =>
    intro a b ha hb
    rw [List.flatMap_cons]
    cases a with
    | zero =>
      have hlen : b < (f x).length := by
        rw [hK x (List.mem_cons_self _ _)]
        exact hb
      simpa using List.getElem?_append_left hlen
    | succ a =>
      have hlen : (f x).length ≤ (a + 1) * K + b := by
        rw [hK x (List.mem_cons_self _ _)]
        have : K ≤ (a + 1) * K := Nat.le_mul_of_pos_left K (Nat.succ_pos a)
        omega
      rw [List.getElem?_append_right hlen]
      have hidx : (a + 1) * K + b - (f x).length = a * K + b := by
        rw [hK x (List.mem_cons_self _ _)]
        have : (a + 1) * K = a * K + K := by ring
        omega
      rw [hidx]
      have ha' : a < xs.length := by
        simpa using Nat.lt_of_succ_lt_succ (by simpa using ha)
      rw [ih (fun y hy => hK y (List.mem_cons_of_mem _ hy)) a b ha' hb]
      rfl

theorem nodup_flatMap_key {α β : Type} {l : List α} {f : α → List β}
    (g : β → α) (hg : ∀ a ∈ l, ∀ b ∈ f a, g b = a) (hl : l.Nodup)
    (hf : ∀ a ∈ l, (f a).Nodup) : (l.flatMap f).Nodup := by
  induction l with
  | nil => simp
  | cons x xs ih =>
    rw [List.flatMap_cons, List.nodup_append]
    refine ⟨hf x (List.mem_cons_self _ _), ?_, ?_⟩
    · exact ih (fun a ha b hb => hg a (List.mem_cons_of_mem _ ha) b hb)
        ((List.nodup_cons.1 hl).2) (fun a ha => hf a (List.mem_cons_of_mem _ ha))
    · intro b hb hb'
      obtain ⟨a, ha, hba⟩ := List.mem_flatMap.1 hb'
      have h1 : g b = x := hg x (List.mem_cons_self _ _) b hb
      have h2 : g b = a := hg a (List.mem_cons_of_mem _ ha) b hba
      exact (List.nodup_cons.1 hl).1 (h1 ▸ h2 ▸ ha)

/-! ## Validation ignores the actions -/

/-- The DFS validator never consults the action outcomes (it reads only the
dependency dictionary). -/
theorem visit_congr (t1 t2 : List Name) (d : List (Name × List Name))
    (o1 o2 : Name → Bool) : ∀ fuel : Nat,
    (∀ n visiting done, visitNode ⟨t1, d, o1⟩ fuel n visiting done =
      visitNode ⟨t2, d, o2⟩ fuel n visiting done) ∧
    (∀ ds visiting done, visitList ⟨t1, d, o1⟩ fuel ds visiting done =
      visitList ⟨t2, d, o2⟩ fuel ds visiting done) := by
  intro fuel
  induction fuel with
  | zero =>
    constructor
    · intro n visiting done
      rw [visitNode_zero, visitNode_zero]
    · intro ds
      induction ds with
      | nil =>
        intro visiting done
        rw [visitList_nil, visitList_nil]
      | cons x ds ihds =>
        intro visiting done
        rw [visitList_cons, visitList_cons, visitNode_zero, visitNode_zero]
  | succ fuel ih =>
    have hnode : ∀ n visiting done, visitNode ⟨t1, d, o1⟩ (fuel + 1) n visiting done =
        visitNode ⟨t2, d, o2⟩ (fuel + 1) n visiting done := by
      intro n visiting done
      rw [visitNode_succ, visitNode_succ]
      rw [ih.2 (depsOf ⟨t1, d, o1⟩ n) (n :: visiting) done]
      rfl
    refine ⟨hnode, ?_⟩
    intro ds
    induction ds with
    | nil =>
      intro visiting done
      rw [visitList_nil, visitList_nil]
    | cons x ds ihds =>
      intro visiting done
      rw [visitList_cons, visitList_cons, hnode x visiting done]
      rcases hv : visitNode ⟨t2, d, o2⟩ (fuel + 1) x visiting done with e | done1
      · rfl
      · exact ihds visiting done1

/-- Validation is outcome-independent: it runs before any action executes
and depends only on the registry keys and the dependency dictionary. -/
theorem validate_outcome_indep (t : List Name) (d : List (Name × List Name))
    (o1 o2 : Name → Bool) :
    validate ⟨t, d, o1⟩ = validate ⟨t, d, o2⟩ := by
  unfold validate
  have hm : missingName ⟨t, d, o1⟩ = missingName ⟨t, d, o2⟩ := rfl
  rw [hm]
  rcases missingName ⟨t, d, o2⟩ with _ | m
  · exact (visit_congr t t d o1 o2 (t.length + 1)).2 t [] []
  · rfl

/-! ## Runner characterisation -/

theorem hasMetrics_iff (fileExists : List Name → Bool) (flowRoot : List Name)
    (expName : Name) (c : RSCMFlowCase) :
    hasMetrics fileExists flowRoot expName c = true ↔
      ∃ pth ∈ metricCandidates flowRoot expName c, fileExists pth = true := by
  unfold hasMetrics findMetricFile
  rw [List.find?_isSome]

theorem findMetricFile_none_iff (fileExists : List Name → Bool)
    (flowRoot : List Name) (expName : Name) (c : RSCMFlowCase) :
    findMetricFile fileExists flowRoot expName c = none ↔
      hasMetrics fileExists flowRoot expName c = false := by
  unfold hasMetrics
  rcases h : findMetricFile fileExists flowRoot expName c with _ | p
  · simp
  · simp

/-- The value the runner hands back for collection: the case itself exactly
when the skip test or the flow invocation succeeds. -/
theorem runner_result_iff (force continueOnError : Bool)
    (fileExists : List Name → Bool) (flowRoot : List Name) (expName : Name)
    (invokeOk : RSCMFlowCase → Bool) (c : RSCMFlowCase) :
    (runner force continueOnError fileExists flowRoot expName invokeOk c).result =
      if (force = false ∧ hasMetrics fileExists flowRoot expName c = true) ∨
          invokeOk c = true then some c else none := by
  unfold runner
  by_cases h1 : force = false ∧ hasMetrics fileExists flowRoot expName c = true
  · rw [if_pos h1, if_pos (Or.inl h1)]
  · rw [if_neg h1]
    by_cases h2 : invokeOk c = true
    · rw [if_pos h2, if_pos (Or.inr h2)]
    · have hno : ¬ ((force = false ∧
          hasMetrics fileExists flowRoot expName c = true) ∨
          invokeOk c = true) := by
        rintro (h | h)
        · exact h1 h
        · exact h2 h
      rw [if_neg h2, if_neg hno]
      cases continueOnError <;> rfl

/-- With `continue_on_error`, the runner never re-raises. -/
theorem runner_no_raise (force : Bool) (fileExists : List Name → Bool)
    (flowRoot : List Name) (expName : Name) (invokeOk : RSCMFlowCase → Bool)
    (c : RSCMFlowCase) :
    (runner force true fileExists flowRoot expName invokeOk c).raised = false := by
  unfold runner
  by_cases h1 : force = false ∧ hasMetrics fileExists flowRoot expName c = true
  · rw [if_pos h1]
  · rw [if_neg h1]
    by_cases h2 : invokeOk c = true
    · rw [if_pos h2]
    · rw [if_neg h2, if_pos rfl]

/-- The `make` subprocess runs only when forced or when no metrics file was
found. -/
theorem runner_invoke_cases (force continueOnError : Bool)
    (fileExists : List Name → Bool) (flowRoot : List Name) (expName : Name)
    (invokeOk : RSCMFlowCase → Bool) (c : RSCMFlowCase)
    (h : (runner force continueOnError fileExists flowRoot expName
      invokeOk c).invokedMake = true) :
    force = true ∨ findMetricFile fileExists flowRoot expName c = none := by
  unfold runner at h
  by_cases h1 : force = false ∧ hasMetrics fileExists flowRoot expName c = true
  · rw [if_pos h1] at h
    cases h
  · rcases Decidable.not_and_iff_or_not.1 h1 with hf | hm
    · left
      rcases force with _ | _
      · exact absurd rfl hf
      · rfl
    · right
      rw [findMetricFile_none_iff]
      rcases hmv : hasMetrics fileExists flowRoot expName c with _ | _
      · rfl
      · exact absurd hmv hm

/-- `completed` is exactly the list of cases that were skipped-with-metrics
or whose flow invocation succeeded, in submission order. -/
theorem runScenarioCompleted_eq (force continueOnError : Bool)
    (fileExists : List Name → Bool) (flowRoot : List Name) (expName : Name)
    (invokeOk : RSCMFlowCase → Bool) (cases : List RSCMFlowCase) :
    runScenarioCompleted force continueOnError fileExists flowRoot expName
        invokeOk cases =
      cases.filter (fun c =>
        (!force && hasMetrics fileExists flowRoot expName c) || invokeOk c) := by
  unfold runScenarioCompleted
  induction cases with
  | nil => rfl
  | cons c cs ih =>
    rw [List.filterMap_cons, List.filter_cons, runner_result_iff]
    by_cases h : (force = false ∧ hasMetrics fileExists flowRoot expName c = true) ∨
        invokeOk c = true
    · have hb : ((!force && hasMetrics fileExists flowRoot expName c) ||
          invokeOk c) = true := by
        rcases h with ⟨h1, h2⟩ | h2
        · subst h1
          simp [h2]
        · simp [h2]
      rw [if_pos h, hb, if_pos rfl, ih]
    · have hb : ((!force && hasMetrics fileExists flowRoot expName c) ||
          invokeOk c) = false := by
        rcases hor : (!force && hasMetrics fileExists flowRoot expName c ||
            invokeOk c) with _ | _
        · rfl
        · exfalso
          rcases Bool.or_eq_true_iff.1 hor with h1 | h1
          · have hf : force = false := by
              rcases force with _ | _
              · rfl
              · simp at h1
            have hm : hasMetrics fileExists flowRoot expName c = true := by
              rcases Bool.and_eq_true_iff.1 h1 with ⟨_, h2⟩
              exact h2
            exact h (Or.inl ⟨hf, hm⟩)
          · exact h (Or.inr h1)
      rw [if_neg h, hb, ih]
      simp

/-! ## `build_cases` enumeration facts -/

theorem buildCases_inner2_length (pdks : List Name) (densities clocks : List ℚ)
    (fmtTag : ℚ → ℚ → Name) (v : Name) :
    (pdks.flatMap fun p => densities.flatMap fun d =>
      clocks.map fun c => RSCMFlowCase.mk v p d c (fmtTag d c)).length =
      pdks.length * (densities.length * clocks.length) := by
  refine length_flatMap_const ?_
  intro p _
  refine length_flatMap_const ?_
  intro d _
  exact List.length_map _ _

theorem buildCases_length (variants pdks : List Name)
    (densities clocks : List ℚ) (fmtTag : ℚ → ℚ → Name) :
    (buildCases variants pdks densities clocks fmtTag).length =
      variants.length * (pdks.length * (densities.length * clocks.length)) := by
  unfold buildCases
  refine length_flatMap_const ?_
  intro v _
  exact buildCases_inner2_length pdks densities clocks fmtTag v

/-- `build_cases` enumerates the sweep in `itertools.product` order: the
case at flattened index `((i·|pdks| + j)·|densities| + k)·|clocks| + m` is
built from the `i`-th variant, `j`-th pdk, `k`-th density and `m`-th
clock. -/
theorem buildCases_getElem (variants pdks : List Name)
    (densities clocks : List ℚ) (fmtTag : ℚ → ℚ → Name) (i j k m : Nat)
    (hi : i < variants.length) (hj : j < pdks.length)
    (hk : k < densities.length) (hm : m < clocks.length) :
    (buildCases variants pdks densities clocks fmtTag)[
        ((i * pdks.length + j) * densities.length + k) * clocks.length + m]? =
      some (RSCMFlowCase.mk (variants.get ⟨i, hi⟩) (pdks.get ⟨j, hj⟩)
        (densities.get ⟨k, hk⟩) (clocks.get ⟨m, hm⟩)
        (fmtTag (densities.get ⟨k, hk⟩) (clocks.get ⟨m, hm⟩))) := by
  have hidx : ((i * pdks.length + j) * densities.length + k) * clocks.length + m =
      i * (pdks.length * (densities.length * clocks.length)) +
        ((j * (densities.length * clocks.length)) +
          (k * clocks.length + m)) := by ring
  have hb1 : k * clocks.length + m < densities.length * clocks.length := by
    have h1 : k * clocks.length + m < (k + 1) * clocks.length := by
      have : (k + 1) * clocks.length = k * clocks.length + clocks.length := by ring
      omega
    have h2 : (k + 1) * clocks.length ≤ densities.length * clocks.length :=
      Nat.mul_le_mul_right _ hk
    omega
  have hb2 : j * (densities.length * clocks.length) +
      (k * clocks.length + m) < pdks.length * (densities.length * clocks.length) := by
    have h1 : j * (densities.length * clocks.length) + (k * clocks.length + m) <
        (j + 1) * (densities.length * clocks.length) := by
      have : (j + 1) * (densities.length * clocks.length) =
          j * (densities.length * clocks.length) +
            densities.length * clocks.length := by ring
      omega
    have h2 : (j + 1) * (densities.length * clocks.length) ≤
        pdks.length * (densities.length * clocks.length) :=
      Nat.mul_le_mul_right _ hj
    omega
  unfold buildCases
  rw [hidx]
  rw [getElem?_flatMap_const
    (fun v _ => buildCases_inner2_length pdks densities clocks fmtTag v)
    i _ hi hb2]
  rw [getElem?_flatMap_const
    (fun p _ => length_flatMap_const (fun d _ => List.length_map _ _))
    j _ hj hb1]
  rw [getElem?_flatMap_const (fun d _ => List.length_map _ _) k m hk hm]
  rw [List.getElem?_map]
  rw [List.getElem?_eq_getElem hm]
  simp [List.get_eq_getElem]

theorem buildCases_mem_shape (variants pdks : List Name)
    (densities clocks : List ℚ) (fmtTag : ℚ → ℚ → Name) {c : RSCMFlowCase}
    (h : c ∈ buildCases variants pdks densities clocks fmtTag) :
    c.variantName ∈ variants ∧ c.pdk ∈ pdks ∧ c.density ∈ densities ∧
      c.clockNs ∈ clocks ∧ c.runTag = fmtTag c.density c.clockNs := by
  unfold buildCases at h
  obtain ⟨v, hv, h2⟩ := List.mem_flatMap.1 h
  obtain ⟨p, hp, h3⟩ := List.mem_flatMap.1 h2
  obtain ⟨d, hd, h4⟩ := List.mem_flatMap.1 h3
  obtain ⟨ck, hc, h5⟩ := List.mem_map.1 h4
  rw [← h5]
  exact ⟨hv, hp, hd, hc, rfl⟩

/-- With duplicate-free sweep inputs, `build_cases` emits each case once. -/
theorem buildCases_nodup (variants pdks : List Name)
    (densities clocks : List ℚ) (fmtTag : ℚ → ℚ → Name)
    (hv : variants.Nodup) (hp : pdks.Nodup) (hd : densities.Nodup)
    (hc : clocks.Nodup) :
    (buildCases variants pdks densities clocks fmtTag).Nodup := by
  unfold buildCases
  refine nodup_flatMap_key RSCMFlowCase.variantName ?_ hv ?_
  · intro v _ b hb
    obtain ⟨p, _, h2⟩ := List.mem_flatMap.1 hb
    obtain ⟨d, _, h3⟩ := List.mem_flatMap.1 h2
    obtain ⟨ck, _, h4⟩ := List.mem_map.1 h3
    rw [← h4]
  · intro v _
    refine nodup_flatMap_key RSCMFlowCase.pdk ?_ hp ?_
    · intro p _ b hb
      obtain ⟨d, _, h2⟩ := List.mem_flatMap.1 hb
      obtain ⟨ck, _, h3⟩ := List.mem_map.1 h2
      rw [← h3]
    · intro p _
      refine nodup_flatMap_key RSCMFlowCase.density ?_ hd ?_
      · intro d _ b hb
        obtain ⟨ck, _, h2⟩ := List.mem_map.1 hb
        rw [← h2]
      · intro d _
        refine List.Nodup.map_on ?_ hc
        intro x _ y _ hxy
        exact congrArg RSCMFlowCase.clockNs hxy

/-! ## Example scenarios used by the witnesses -/

/-- The spec's concrete chain scenario: `mkdir → generate → translate →
place_and_route → extract_metrics`. -/
def exChain : Scenario :=
  { tasks := ["mkdir", "generate", "translate", "place_and_route",
      "extract_metrics"]
    deps := [("mkdir", []), ("generate", ["mkdir"]),
      ("translate", ["generate"]), ("place_and_route", ["translate"]),
      ("extract_metrics", ["place_and_route"])]
    outcome := fun _ => true }

/-- The spec's concrete stall scenario: two chains of two tasks under one
worker, the first chain's first task failing. -/
def exFail : Scenario :=
  { tasks := ["a1", "a2", "b1", "b2"]
    deps := [("a1", []), ("a2", ["a1"]), ("b1", []), ("b2", ["b1"])]
    outcome := fun n => n != "a1" }

/-- The spec's two-task cycle `{A depends on B, B depends on A}`. -/
def twoCycle : Scenario :=
  { tasks := ["A", "B"]
    deps := [("A", ["B"]), ("B", ["A"])]
    outcome := fun _ => true }

/-! ## The claims -/

/-- C1: For every task B and every declared dependency A of B, B never
enters `running` before A has reached `succeeded`: in the transition log,
A's `succeeded` timestamp precedes B's `running` timestamp.  In particular,
in the graph built by `SimpleFlowExperiment.run`, each `metrics_*` task
depends on its case's `flow_*` task, and (when case names determine the
pdk) each `flow_*` task depends on its pdk's `render_cfg_*` task, so those
starts are ordered after the corresponding successes. -/
theorem claim_C1_dependency_order :
    (∀ (s : Scenario) (N : Nat) (rep : RunReport), s.tasks.Nodup →
      run s N = .ok rep →
      ∀ e ∈ rep.log, e.tr = Transition.toRunning →
        ∀ d ∈ depsOf s e.task,
          ∃ t, t < e.time ∧ Event.mk t d Transition.toSucceeded ∈ rep.log) ∧
    (∀ (pdks tags : List Name) (o : Name → Bool), ∀ p ∈ pdks, ∀ t ∈ tags,
      depsOf (simpleFlowScenario pdks tags o)
          ("metrics_" ++ (p ++ "_" ++ t)) = ["flow_" ++ (p ++ "_" ++ t)] ∧
      ((∀ p1 ∈ pdks, ∀ t1 ∈ tags, ∀ p2 ∈ pdks, ∀ t2 ∈ tags,
          p1 ++ "_" ++ t1 = p2 ++ "_" ++ t2 → p1 = p2) →
        depsOf (simpleFlowScenario pdks tags o)
          ("flow_" ++ (p ++ "_" ++ t)) = ["render_cfg_" ++ p])) := by
  constructor
  · intro s N rep hnd hrun e he htr d hd
    obtain ⟨_, _, _, hlog, l, hval⟩ := run_ok_cases hrun
    rw [hlog] at he ⊢
    exact (finalSchedState_inv hnd).runDeps e he htr d hd
  · intro pdks tags o p hp t ht
    exact ⟨simpleFlow_depsOf_metrics pdks tags o hp ht,
      fun hinj => simpleFlow_depsOf_flow pdks tags o hp ht hinj⟩

theorem claim_C1_witness :
    ∃ rep, run exChain 4 = Except.ok rep ∧
      ∀ e ∈ rep.log, e.tr = Transition.toRunning →
        ∀ d ∈ depsOf exChain e.task,
          ∃ t, t < e.time ∧ Event.mk t d Transition.toSucceeded ∈ rep.log :=
  ⟨_, rfl, claim_C1_dependency_order.1 exChain 4 _ (by decide) rfl⟩

/-- C2: at every instant during execution, at most `N` tasks are in the
`running` state, where `N` is the caller-supplied concurrency budget. -/
theorem claim_C2_concurrency_bound :
    ∀ (s : Scenario) (N : Nat), s.tasks.Nodup → 1 ≤ N →
      ∀ (fuel : Nat), ∀ st ∈ execTrace s N fuel (initState s),
        st.running.length ≤ N := by
  intro s N hnd _ fuel st hst
  exact execTrace_bound hnd fuel (initState s) (initInv s N) st hst

theorem claim_C2_witness :
    (initState exChain).running.length ≤ 2 :=
  claim_C2_concurrency_bound exChain 2 (by decide) (by decide) 11
    (initState exChain) (by decide)

/-- C3: a failing action is recorded as `failed` and does not abort the
run: the scheduler still returns a report, every failed task's action
indeed failed, and every task whose own action and whose transitive
dependencies' actions all succeed ends `succeeded`.  In `run_scenario` with
`continue_on_error=True` the runner never re-raises and `completed`
collects exactly the cases that were skipped or ran successfully. -/
theorem claim_C3_failure_containment :
    (∀ (s : Scenario) (N : Nat) (l : List Name), s.tasks.Nodup → 1 ≤ N →
      validate s = .ok l →
      ∃ rep, run s N = .ok rep ∧
        (∀ n ∈ rep.failed, s.outcome n = false) ∧
        (∀ n ∈ rep.succeeded, s.outcome n = true) ∧
        (∀ n ∈ s.tasks, s.outcome n = true →
          (∀ m, DepPath s n m → s.outcome m = true) → n ∈ rep.succeeded)) ∧
    (∀ (force : Bool) (fileExists : List Name → Bool) (flowRoot : List Name)
        (expName : Name) (invokeOk : RSCMFlowCase → Bool)
        (cases : List RSCMFlowCase),
      (∀ c ∈ cases,
        (runner force true fileExists flowRoot expName
          invokeOk c).raised = false) ∧
      runScenarioCompleted force true fileExists flowRoot expName
          invokeOk cases =
        cases.filter (fun c =>
          (!force && hasMetrics fileExists flowRoot expName c) ||
            invokeOk c)) := by
  constructor
  · intro s N l hnd hN hval
    refine ⟨_, run_eq_ok hval, ?_, ?_, ?_⟩
    · intro n hn
      exact (finalSchedState_inv hnd).failOut n hn
    · intro n hn
      exact (finalSchedState_inv hnd).succOut n hn
    · intro n hn ho hpath
      exact terminal_progress hnd hval (finalSchedState_inv hnd)
        (finalSchedState_terminal hN hnd) n hn ho hpath
  · intro force fileExists flowRoot expName invokeOk cases
    exact ⟨fun c _ =>
        runner_no_raise force fileExists flowRoot expName invokeOk c,
      runScenarioCompleted_eq force true fileExists flowRoot expName
        invokeOk cases⟩

theorem claim_C3_witness :
    ∃ rep, run exFail 1 = Except.ok rep ∧
      (∀ n ∈ rep.failed, exFail.outcome n = false) ∧
      (∀ n ∈ rep.succeeded, exFail.outcome n = true) ∧
      (∀ n ∈ exFail.tasks, exFail.outcome n = true →
        (∀ m, DepPath exFail n m → exFail.outcome m = true) →
          n ∈ rep.succeeded) :=
  claim_C3_failure_containment.1 exFail 1 _ (by decide) (by decide) rfl

/-- C4: a cyclic dependency graph is rejected before any action executes:
`run` surfaces a fatal `ConfigurationError` (the cycle as an ordered task
list when all references are valid), and validation never consults the
actions' outcomes. -/
theorem claim_C4_cycle_detection :
    ∀ (s : Scenario) (N : Nat), HasCycle s →
      (∃ e, run s N = .error e) ∧
      (missingName s = none →
        ∃ c, run s N = .error (ConfigError.cyclic c)) ∧
      (∀ o2 : Name → Bool,
        validate { tasks := s.tasks, deps := s.deps, outcome := o2 } =
          validate s) := by
  intro s N hcyc
  refine ⟨?_, ?_, ?_⟩
  · obtain ⟨e, he⟩ := validate_error_of_hasCycle hcyc
    refine ⟨e, ?_⟩
    unfold run
    rw [he]
  · intro hm
    obtain ⟨c, hc⟩ := validate_cyclic_of_hasCycle hcyc hm
    refine ⟨c, ?_⟩
    unfold run
    rw [hc]
  · intro o2
    exact validate_outcome_indep s.tasks s.deps o2 s.outcome

theorem claim_C4_witness :
    run twoCycle 4 = Except.error (ConfigError.cyclic ["A", "B"]) ∧
    (∃ e, run twoCycle 4 = Except.error e) := by
  have hcyc : HasCycle twoCycle :=
    ⟨"A", by decide, Relation.TransGen.head
      (show ("B" : Name) ∈ depsOf twoCycle "A" by decide)
      (Relation.TransGen.single
        (show ("A" : Name) ∈ depsOf twoCycle "B" by decide))⟩
  exact ⟨rfl, (claim_C4_cycle_detection twoCycle 4 hcyc).1⟩

/-- C5: every task ends the run in exactly one of `succeeded`, `failed`, or
unreachable, all three enumerable from the returned RunReport; no task is
dropped and no unregistered task appears. -/
theorem claim_C5_outcome_partition :
    ∀ (s : Scenario) (N : Nat) (rep : RunReport), s.tasks.Nodup → 1 ≤ N →
      run s N = .ok rep →
      (∀ n ∈ s.tasks,
        (n ∈ rep.succeeded ∨ n ∈ rep.failed ∨ n ∈ rep.unreachable) ∧
        ¬ (n ∈ rep.succeeded ∧ n ∈ rep.failed) ∧
        ¬ (n ∈ rep.succeeded ∧ n ∈ rep.unreachable) ∧
        ¬ (n ∈ rep.failed ∧ n ∈ rep.unreachable)) ∧
      (∀ n, n ∈ rep.succeeded ∨ n ∈ rep.failed ∨ n ∈ rep.unreachable →
        n ∈ s.tasks) := by
  intro s N rep hnd hN hrun
  obtain ⟨hsc, hf, hunr, _, l, hval⟩ := run_ok_cases hrun
  have inv := finalSchedState_inv (s := s) (N := N) hnd
  have hterm := finalSchedState_terminal (s := s) (N := N) hN hnd
  obtain ⟨hd1, hd2⟩ := parts_disjoint hnd inv
  constructor
  · intro n hn
    have hparts := inv.perm.mem_iff.2 hn
    rw [hsc, hf, hunr]
    constructor
    · rcases List.mem_append.1 hparts with h1 | h4
      · rcases List.mem_append.1 h1 with h2 | h3
        · rcases List.mem_append.1 h2 with hp | hr
          · exact Or.inr (Or.inr hp)
          · rw [hterm.1] at hr
            cases hr
        · exact Or.inl h3
      · exact Or.inr (Or.inl h4)
    · refine ⟨?_, ?_, ?_⟩
      · rintro ⟨h1, h2⟩
        exact hd1 n h1 h2
      · rintro ⟨h1, h2⟩
        exact (hd2 n h2).1 h1
      · rintro ⟨h1, h2⟩
        exact (hd2 n h2).2 h1
  · intro n hn
    rw [hsc, hf, hunr] at hn
    apply inv.perm.mem_iff.1
    rcases hn with h | h | h
    · exact List.mem_append_left _ (List.mem_append_right _ h)
    · exact List.mem_append_right _ h
    · exact List.mem_append_left _ (List.mem_append_left _
        (List.mem_append_left _ h))

theorem claim_C5_witness :
    ∃ rep, run exFail 1 = Except.ok rep ∧
      (("a2" ∈ rep.succeeded ∨ "a2" ∈ rep.failed ∨ "a2" ∈ rep.unreachable) ∧
        ¬ (("a2" : Name) ∈ rep.succeeded ∧ "a2" ∈ rep.failed)) := by
  refine ⟨_, rfl, ?_⟩
  have h := (claim_C5_outcome_partition exFail 1 _ (by decide) (by decide)
    rfl).1 "a2" (by decide)
  exact ⟨h.1, h.2.1⟩

/-- C6: within one scheduler invocation each admitted task runs exactly
once — succeeded and failed tasks have exactly one `running` event,
unreachable tasks none, no task has more than one.  In `run_scenario`, the
pool receives exactly the `build_cases` list, one submission per case. -/
theorem claim_C6_exactly_once :
    (∀ (s : Scenario) (N : Nat) (rep : RunReport), s.tasks.Nodup → 1 ≤ N →
      run s N = .ok rep →
      (∀ n ∈ s.tasks, runEvents rep.log n ≤ 1) ∧
      (∀ n, n ∈ rep.succeeded ∨ n ∈ rep.failed → runEvents rep.log n = 1) ∧
      (∀ n ∈ rep.unreachable, runEvents rep.log n = 0)) ∧
    (∀ (variants pdks : List Name) (densities clocks : List ℚ)
        (fmtTag : ℚ → ℚ → Name),
      runScenarioSubmissions variants pdks densities clocks fmtTag =
        buildCases variants pdks densities clocks fmtTag ∧
      (variants.Nodup → pdks.Nodup → densities.Nodup → clocks.Nodup →
        ∀ c ∈ buildCases variants pdks densities clocks fmtTag,
          (runScenarioSubmissions variants pdks densities clocks
            fmtTag).count c = 1)) := by
  constructor
  · intro s N rep hnd hN hrun
    obtain ⟨hsc, hf, hunr, hlog, l, hval⟩ := run_ok_cases hrun
    have inv := finalSchedState_inv (s := s) (N := N) hnd
    have hterm := finalSchedState_terminal (s := s) (N := N) hN hnd
    rw [hsc, hf, hunr, hlog]
    refine ⟨?_, ?_, ?_⟩
    · intro n hn
      have hparts := inv.perm.mem_iff.2 hn
      rcases List.mem_append.1 hparts with h1 | h4
      · rcases List.mem_append.1 h1 with h2 | h3
        · rcases List.mem_append.1 h2 with hp | hr
          · rw [inv.pendCount n hp]
            omega
          · rw [inv.doneCount n (Or.inl hr)]
        · rw [inv.doneCount n (Or.inr (Or.inl h3))]
      · rw [inv.doneCount n (Or.inr (Or.inr h4))]
    · intro n hn
      rcases hn with h | h
      · exact inv.doneCount n (Or.inr (Or.inl h))
      · exact inv.doneCount n (Or.inr (Or.inr h))
    · intro n hn
      exact inv.pendCount n hn
  · intro variants pdks densities clocks fmtTag
    refine ⟨rfl, ?_⟩
    intro hv hp hd hc c hmem
    exact List.count_eq_one_of_mem
      (buildCases_nodup variants pdks densities clocks fmtTag hv hp hd hc) hmem

theorem claim_C6_witness :
    ∃ rep, run exChain 4 = Except.ok rep ∧
      runEvents rep.log "translate" ≤ 1 := by
  refine ⟨_, rfl, ?_⟩
  exact (claim_C6_exactly_once.1 exChain 4 _ (by decide) (by decide)
    rfl).1 "translate" (by decide)

/-- C7: for validated (acyclic, well-referenced) graphs the scheduler
terminates: the returned report exists, its log holds at most one
worker-step per task, and the reached final state is a fixed point of the
loop.  `build_cases` yields finitely many cases — exactly the product of
the sweep dimensions. -/
theorem claim_C7_termination :
    (∀ (s : Scenario) (N : Nat) (l : List Name), s.tasks.Nodup → 1 ≤ N →
      validate s = .ok l →
      (∃ rep, run s N = .ok rep ∧ runTotal rep.log ≤ s.tasks.length) ∧
      (∀ extra, execLoop s N extra (finalSchedState s N) =
        finalSchedState s N)) ∧
    (∀ (variants pdks : List Name) (densities clocks : List ℚ)
        (fmtTag : ℚ → ℚ → Name),
      (buildCases variants pdks densities clocks fmtTag).length =
        variants.length * (pdks.length * (densities.length * clocks.length))) := by
  constructor
  · intro s N l hnd hN hval
    have inv := finalSchedState_inv (s := s) (N := N) hnd
    constructor
    · refine ⟨_, run_eq_ok hval, ?_⟩
      have htot := inv.total
      have hlen := inv.perm.length_eq
      simp only [List.length_append] at hlen
      show runTotal (finalSchedState s N).log ≤ s.tasks.length
      omega
    · exact fun extra =>
        execLoop_stable (finalSchedState_terminal hN hnd) extra
  · intro variants pdks densities clocks fmtTag
    exact buildCases_length variants pdks densities clocks fmtTag

theorem claim_C7_witness :
    ∃ rep, run exChain 4 = Except.ok rep ∧
      runTotal rep.log ≤ exChain.tasks.length :=
  (claim_C7_termination.1 exChain 4 _ (by decide) (by decide) rfl).1

/-- C8: the graphs built by `flopoco_flow_experiment.main` and
`SimpleFlowExperiment.run` satisfy the scheduler's construction contract
for every choice of designs, pdks and clock tags: dependency keys and all
referenced names are registry keys, and the dependency relation is
acyclic. -/
theorem claim_C8_construction_contract :
    ∀ (designs fpdks ftags spdks stags : List Name) (o1 o2 : Name → Bool),
      ContractOK (flopocoScenario designs fpdks ftags o1) ∧
      ContractOK (simpleFlowScenario spdks stags o2) :=
  fun designs fpdks ftags spdks stags o1 o2 =>
    ⟨flopoco_contract designs fpdks ftags o1,
      simpleFlow_contract spdks stags o2⟩

/-- C9: admission order is deterministic — it is a function of the registry,
dependency dictionary and action outcomes alone — and `build_cases`
enumerates the (variant, pdk, density, clock) product in the same order on
every call, the pool receiving exactly that list. -/
theorem claim_C9_deterministic_order :
    (∀ (t : List Name) (d : List (Name × List Name)) (o1 o2 : Name → Bool)
        (N : Nat), (∀ n, o1 n = o2 n) →
      admissionSeq ⟨t, d, o1⟩ N = admissionSeq ⟨t, d, o2⟩ N) ∧
    (∀ (variants pdks : List Name) (densities clocks : List ℚ)
        (fmtTag : ℚ → ℚ → Name),
      runScenarioSubmissions variants pdks densities clocks fmtTag =
        buildCases variants pdks densities clocks fmtTag ∧
      ∀ (i j k m : Nat) (hi : i < variants.length) (hj : j < pdks.length)
          (hk : k < densities.length) (hm : m < clocks.length),
        (runScenarioSubmissions variants pdks densities clocks fmtTag)[
            ((i * pdks.length + j) * densities.length + k) *
              clocks.length + m]? =
          some (RSCMFlowCase.mk (variants.get ⟨i, hi⟩) (pdks.get ⟨j, hj⟩)
            (densities.get ⟨k, hk⟩) (clocks.get ⟨m, hm⟩)
            (fmtTag (densities.get ⟨k, hk⟩) (clocks.get ⟨m, hm⟩)))) := by
  constructor
  · intro t d o1 o2 N h
    exact admissionSeq_congr t d o1 o2 h N
  · intro variants pdks densities clocks fmtTag
    exact ⟨rfl, fun i j k m hi hj hk hm =>
      buildCases_getElem variants pdks densities clocks fmtTag i j k m
        hi hj hk hm⟩

theorem claim_C9_witness :
    admissionSeq ⟨["A", "B"], [("A", []), ("B", ["A"])], fun _ => true⟩ 2 =
      admissionSeq ⟨["A", "B"], [("A", []), ("B", ["A"])], fun _ => true⟩ 2 ∧
    (runScenarioSubmissions ["v0", "v1"] ["p0"] [(1 : ℚ)] [(2 : ℚ), (3 : ℚ)]
        (fun _ _ => "tag"))[3]? =
      some (RSCMFlowCase.mk "v1" "p0" 1 3 "tag") := by
  constructor
  · exact claim_C9_deterministic_order.1 ["A", "B"] [("A", []), ("B", ["A"])]
      (fun _ => true) (fun _ => true) 2 (fun n => rfl)
  · have h := (claim_C9_deterministic_order.2 ["v0", "v1"] ["p0"] [(1 : ℚ)]
      [(2 : ℚ), (3 : ℚ)] (fun _ _ => "tag")).2 1 0 0 1 (by decide) (by decide)
      (by decide) (by decide)
    simpa using h

/-- C10: when a metrics file already exists at one of the probed paths and
`force` is unset, the runner returns the case without launching the `make`
subprocess and the case still contributes its row to the collected
metrics; the subprocess runs only when forced or when no metrics file is
found. -/
theorem claim_C10_skip_existing_metrics :
    ∀ (continueOnError : Bool) (fileExists : List Name → Bool)
      (flowRoot : List Name) (expName : Name) (invokeOk : RSCMFlowCase → Bool)
      (c : RSCMFlowCase) (cases : List RSCMFlowCase),
      ((∃ pth ∈ metricCandidates flowRoot expName c, fileExists pth = true) →
        runner false continueOnError fileExists flowRoot expName invokeOk c =
          ⟨some c, false, false⟩ ∧
        (c ∈ cases →
          MetricsRow.mk c.variantName c.pdk c.density c.clockNs ∈
            collectRows (runScenarioCompleted false continueOnError fileExists
              flowRoot expName invokeOk cases))) ∧
      (∀ force : Bool,
        (runner force continueOnError fileExists flowRoot expName
          invokeOk c).invokedMake = true →
        force = true ∨ findMetricFile fileExists flowRoot expName c = none) := by
  intro continueOnError fileExists flowRoot expName invokeOk c cases
  constructor
  · intro hex
    have hm : hasMetrics fileExists flowRoot expName c = true :=
      (hasMetrics_iff fileExists flowRoot expName c).2 hex
    have hskip : runner false continueOnError fileExists flowRoot expName
        invokeOk c = ⟨some c, false, false⟩ := by
      unfold runner
      rw [if_pos ⟨rfl, hm⟩]
    refine ⟨hskip, ?_⟩
    intro hc
    have hcomp : c ∈ runScenarioCompleted false continueOnError fileExists
        flowRoot expName invokeOk cases := by
      unfold runScenarioCompleted
      refine List.mem_filterMap.2 ⟨c, hc, ?_⟩
      rw [hskip]
    exact List.mem_map.2 ⟨c, hcomp, rfl⟩
  · intro force h
    exact runner_invoke_cases force continueOnError fileExists flowRoot
      expName invokeOk c h

theorem claim_C10_witness :
    runner false true (fun _ => true) ["root"] "rscm_shift"
        (fun _ => false) (RSCMFlowCase.mk "v" "p" 1 2 "tag") =
      ⟨some (RSCMFlowCase.mk "v" "p" 1 2 "tag"), false, false⟩ := by
  have h := (claim_C10_skip_existing_metrics true (fun _ => true) ["root"]
    "rscm_shift" (fun _ => false) (RSCMFlowCase.mk "v" "p" 1 2 "tag") []).1
    ⟨["root", "reports", "p", "v", "tag", "metrics.json"], by decide, rfl⟩
  exact h.1

end SUF
